import Mathlib

/-!
Verification development for the jsonebula core: the path selector language
(parser and evaluator), the entity extractor, the relation-based edge deriver,
and the cross-document identity-merge engine.  All definitions below are
shallow embeddings of the JavaScript source in `src/path/extractor.js`
(parser/evaluator part), `src/extraction/engine.js` and the merge portion of
the application entry module (`resolvePkValue`, `deepMergeWithTracking`,
`computeNodeMappings`).

Modelling conventions:
* JSON numbers are modelled as integers (every numeric value appearing in the
  claims is an integer; floating-point formatting is out of scope).
* A JavaScript value that is not JSON data but is reachable by property lookup
  through `Object.prototype` (for example `({}).toString`, an inherited
  function) is modelled by the `Json.native` constructor carrying the
  property name.
* JavaScript exceptions thrown by the path parser are modelled with `Except`.
-/

namespace Jsonebula

/-- JSON-ish runtime values.  `native name` stands for a non-JSON value
(an inherited function such as `toString`) obtained by reading the property
`name` from `Object.prototype`. -/
inductive Json where
  | null
  | bool (b : Bool)
  | num (n : Int)
  | str (s : String)
  | arr (elems : List Json)
  | obj (fields : List (String × Json))
  | native (name : String)
deriving Repr

mutual

/-- Decidable equality for `Json` (written by hand because the automatic
derivation does not support nested inductives). -/
def Json.decEq : (a b : Json) → Decidable (a = b)
  | .null, .null => isTrue rfl
  | .null, .bool _ => isFalse (fun h => Json.noConfusion h)
  | .null, .num _ => isFalse (fun h => Json.noConfusion h)
  | .null, .str _ => isFalse (fun h => Json.noConfusion h)
  | .null, .arr _ => isFalse (fun h => Json.noConfusion h)
  | .null, .obj _ => isFalse (fun h => Json.noConfusion h)
  | .null, .native _ => isFalse (fun h => Json.noConfusion h)
  | .bool _, .null => isFalse (fun h => Json.noConfusion h)
  | .bool a, .bool b =>
      if h : a = b then isTrue (by rw [h]) else
        isFalse (fun hh => h (by cases hh; rfl))
  | .bool _, .num _ => isFalse (fun h => Json.noConfusion h)
  | .bool _, .str _ => isFalse (fun h => Json.noConfusion h)
  | .bool _, .arr _ => isFalse (fun h => Json.noConfusion h)
  | .bool _, .obj _ => isFalse (fun h => Json.noConfusion h)
  | .bool _, .native _ => isFalse (fun h => Json.noConfusion h)
  | .num _, .null => isFalse (fun h => Json.noConfusion h)
  | .num _, .bool _ => isFalse (fun h => Json.noConfusion h)
  | .num a, .num b =>
      if h : a = b then isTrue (by rw [h]) else
        isFalse (fun hh => h (by cases hh; rfl))
  | .num _, .str _ => isFalse (fun h => Json.noConfusion h)
  | .num _, .arr _ => isFalse (fun h => Json.noConfusion h)
  | .num _, .obj _ => isFalse (fun h => Json.noConfusion h)
  | .num _, .native _ => isFalse (fun h => Json.noConfusion h)
  | .str _, .null => isFalse (fun h => Json.noConfusion h)
  | .str _, .bool _ => isFalse (fun h => Json.noConfusion h)
  | .str _, .num _ => isFalse (fun h => Json.noConfusion h)
  | .str a, .str b =>
      if h : a = b then isTrue (by rw [h]) else
        isFalse (fun hh => h (by cases hh; rfl))
  | .str _, .arr _ => isFalse (fun h => Json.noConfusion h)
  | .str _, .obj _ => isFalse (fun h => Json.noConfusion h)
  | .str _, .native _ => isFalse (fun h => Json.noConfusion h)
  | .arr _, .null => isFalse (fun h => Json.noConfusion h)
  | .arr _, .bool _ => isFalse (fun h => Json.noConfusion h)
  | .arr _, .num _ => isFalse (fun h => Json.noConfusion h)
  | .arr _, .str _ => isFalse (fun h => Json.noConfusion h)
  | .arr xs, .arr ys =>
      match Json.decEqList xs ys with
      | isTrue h => isTrue (by rw [h])
      | isFalse h => isFalse (fun hh => h (by cases hh; rfl))
  | .arr _, .obj _ => isFalse (fun h => Json.noConfusion h)
  | .arr _, .native _ => isFalse (fun h => Json.noConfusion h)
  | .obj _, .null => isFalse (fun h => Json.noConfusion h)
  | .obj _, .bool _ => isFalse (fun h => Json.noConfusion h)
  | .obj _, .num _ => isFalse (fun h => Json.noConfusion h)
  | .obj _, .str _ => isFalse (fun h => Json.noConfusion h)
  | .obj _, .arr _ => isFalse (fun h => Json.noConfusion h)
  | .obj fs, .obj gs =>
      match Json.decEqFields fs gs with
      | isTrue h => isTrue (by rw [h])
      | isFalse h => isFalse (fun hh => h (by cases hh; rfl))
  | .obj _, .native _ => isFalse (fun h => Json.noConfusion h)
  | .native _, .null => isFalse (fun h => Json.noConfusion h)
  | .native _, .bool _ => isFalse (fun h => Json.noConfusion h)
  | .native _, .num _ => isFalse (fun h => Json.noConfusion h)
  | .native _, .str _ => isFalse (fun h => Json.noConfusion h)
  | .native _, .arr _ => isFalse (fun h => Json.noConfusion h)
  | .native _, .obj _ => isFalse (fun h => Json.noConfusion h)
  | .native a, .native b =>
      if h : a = b then isTrue (by rw [h]) else
        isFalse (fun hh => h (by cases hh; rfl))

/-- Decidable equality for lists of `Json` values. -/
def Json.decEqList : (xs ys : List Json) → Decidable (xs = ys)
  | [], [] => isTrue rfl
  | [], _ :: _ => isFalse (fun h => List.noConfusion h)
  | _ :: _, [] => isFalse (fun h => List.noConfusion h)
  | x :: xs, y :: ys =>
      match Json.decEq x y with
      | isFalse h => isFalse (fun hh => h (by cases hh; rfl))
      | isTrue h1 =>
        match Json.decEqList xs ys with
        | isTrue h2 => isTrue (by rw [h1, h2])
        | isFalse h2 => isFalse (fun hh => h2 (by cases hh; rfl))

/-- Decidable equality for `Json` object field lists. -/
def Json.decEqFields : (fs gs : List (String × Json)) → Decidable (fs = gs)
  | [], [] => isTrue rfl
  | [], _ :: _ => isFalse (fun h => List.noConfusion h)
  | _ :: _, [] => isFalse (fun h => List.noConfusion h)
  | (k, v) :: fs, (k', v') :: gs =>
      if hk : k = k' then
        match Json.decEq v v' with
        | isFalse h => isFalse (fun hh => h (by cases hh; rfl))
        | isTrue hv =>
          match Json.decEqFields fs gs with
          | isTrue ht => isTrue (by rw [hk, hv, ht])
          | isFalse ht => isFalse (fun hh => ht (by cases hh; rfl))
      else isFalse (fun hh => hk (by cases hh; rfl))

end

instance : DecidableEq Json := Json.decEq

/-- The own, enumerable property names of `Object.prototype` relevant to the
JavaScript `in` operator and property reads on plain objects.  Reading one of
these keys on an object that does not define it as an own key yields an
inherited native function. -/
def protoKeys : List String :=
  ["constructor", "hasOwnProperty", "isPrototypeOf", "propertyIsEnumerable",
   "toLocaleString", "toString", "valueOf"]

/-- JavaScript truthiness of a value. -/
def jsTruthy : Json → Bool
  | .null => false
  | .bool b => b
  | .num n => n != 0
  | .str s => !s.isEmpty
  | .arr _ => true
  | .obj _ => true
  | .native _ => true

mutual

/-- JavaScript `String(v)` conversion.  Arrays stringify by joining their
elements with a comma, `null` elements joining as the empty string; plain
objects stringify as `[object Object]`. -/
def jsString : Json → String
  | .null => "null"
  | .bool b => if b then "true" else "false"
  | .num n => toString n
  | .str s => s
  | .arr xs => jsStringElems xs
  | .obj _ => "[object Object]"
  | .native nm => "function " ++ nm ++ "() [native code]"

/-- Helper for `jsString` on arrays: the semantics of `Array.prototype.join`
with separator `,`. -/
def jsStringElems : List Json → String
  | [] => ""
  | [x] => match x with
      | .null => ""
      | v => jsString v
  | x :: y :: rest =>
      (match x with
       | .null => ""
       | v => jsString v) ++ "," ++ jsStringElems (y :: rest)

end

/-- Association-list lookup, modelling a JavaScript object property read or
`Map.get` on string keys (first matching entry wins; our objects have
duplicate-free keys, as produced by `JSON.parse`). -/
def alookup {α : Type} : List (String × α) → String → Option α
  | [], _ => none
  | (k, v) :: rest, key => if k = key then some v else alookup rest key

/-- Association-list update, modelling a JavaScript property write or
`Map.set`: an existing key keeps its position and gets the new value, a fresh
key is appended at the end (insertion order). -/
def jsSet {α : Type} : List (String × α) → String → α → List (String × α)
  | [], key, v => [(key, v)]
  | (k, w) :: rest, key, v =>
      if k = key then (k, v) :: rest else (k, w) :: jsSet rest key v

/-- Push `x` onto the array stored under `key`, creating a one-element array
if the key is absent (models `if (!m[k]) m[k] = []; m[k].push(x)`). -/
def jsPush {α : Type} (m : List (String × List α)) (key : String) (x : α) :
    List (String × List α) :=
  match alookup m key with
  | some xs => jsSet m key (xs ++ [x])
  | none => m ++ [(key, [x])]

/-- JavaScript whitespace as far as `String.prototype.trim` is concerned
(the characters that can occur in the selectors considered here). -/
def isWsC (c : Char) : Bool := c = ' ' || c = '\t' || c = '\n' || c = '\r'

/-- `String.prototype.trim`, written over the character list so that it
evaluates definitionally. -/
def jsTrim (s : String) : String :=
  String.mk (((s.data.dropWhile isWsC).reverse.dropWhile isWsC).reverse)

/-- `String.prototype.startsWith`, written over character lists so that it
evaluates definitionally. -/
def startsWithS (s pre : String) : Bool := pre.data.isPrefixOf s.data

/-- `String.prototype.split` with a one-character separator, over character
lists (every split in the source uses a one-character separator). -/
def splitOnC (sep : Char) : List Char → List (List Char)
  | [] => [[]]
  | c :: rest =>
      if c = sep then [] :: splitOnC sep rest
      else
        match splitOnC sep rest with
        | g :: gs => (c :: g) :: gs
        | [] => [[c]]

/-- `String.prototype.split` with a one-character separator. -/
def splitOnS (s : String) (sep : Char) : List String :=
  (splitOnC sep s.data).map String.mk

/-- Stable insertion into a sorted list: `x` goes before the first element
it compares `le` to, hence before every element with an equal key. -/
def stableInsert {a : Type} (le : a → a → Bool) (x : a) : List a → List a
  | [] => [x]
  | y :: ys => if le x y then x :: y :: ys else y :: stableInsert le x ys

/-- A stable sort (insertion sort), modelling `Array.prototype.sort`, which
is required to be stable by the ECMAScript specification. -/
def stableSort {a : Type} (le : a → a → Bool) : List a → List a
  | [] => []
  | x :: xs => stableInsert le x (stableSort le xs)

/-! ## Path engine: parser (`parsePath` in `src/path/extractor.js`) -/

/-- Path tokens: `$`, a field name, `[*]`, or `[n]`. -/
inductive Token where
  | root
  | field (name : String)
  | allItems
  | index (n : Nat)
deriving DecidableEq, Repr

/-- The three ways `parsePath` throws (the spec calls all of them
`PathSyntaxError`): an unclosed `[`, a bracket whose content is neither `*`
nor a digit sequence, and an unrecognized character.  Each constructor
corresponds to exactly one `throw` site in the source. -/
inductive ParseErr where
  | unclosedBracket
  | badAccessor (inside : String)
  | badChar (rest : String)
deriving DecidableEq, Repr

/-- ASCII decimal digit test (the `\d` of the source's regexes). -/
def isDigitC (c : Char) : Bool := '0' ≤ c && c ≤ '9'

/-- First character of a field name: `[a-zA-Z_]`. -/
def isFieldStart (c : Char) : Bool :=
  ('a' ≤ c && c ≤ 'z') || ('A' ≤ c && c ≤ 'Z') || c = '_'

/-- Subsequent characters of a field name: `[a-zA-Z0-9_-]`. -/
def isFieldCont (c : Char) : Bool := isFieldStart c || isDigitC c || c = '-'

/-- Decimal value of a digit list (the semantics of `parseInt(s, 10)` on an
all-digit string). -/
def digitsToNat (ds : List Char) : Nat :=
  ds.foldl (fun acc c => acc * 10 + (c.toNat - '0'.toNat)) 0

/-- Split a character list at the first `]`, returning the part before and
the part after it (models `remaining.indexOf(']')` plus the two slices). -/
def splitAtClose : List Char → Option (List Char × List Char)
  | [] => none
  | c :: cs =>
      if c = ']' then some ([], cs)
      else
        match splitAtClose cs with
        | some (a, b) => some (c :: a, b)
        | none => none

theorem splitAtClose_len {cs a b : List Char} (h : splitAtClose cs = some (a, b)) :
    b.length < cs.length := by
  induction cs generalizing a b with
  | nil => simp [splitAtClose] at h
  | cons c cs ih =>
    simp only [splitAtClose] at h
    split at h
    · cases h
      simp
    · split at h
      · rename_i a' b' heq
        cases h
        have := ih heq
        simp
        omega
      · exact absurd h (by simp)

theorem dropWhile_len_le {α : Type} (p : α → Bool) (l : List α) :
    (l.dropWhile p).length ≤ l.length := by
  induction l with
  | nil => simp [List.dropWhile]
  | cons x xs ih =>
    by_cases h : p x
    · simp [List.dropWhile, h]
      omega
    · simp [List.dropWhile, h]

/-- Consume one leading dot if present (the source performs this after each
parsed segment). -/
def dropDot : List Char → List Char
  | '.' :: rest => rest
  | cs => cs

theorem dropDot_len_le (cs : List Char) : (dropDot cs).length ≤ cs.length := by
  cases cs with
  | nil => simp [dropDot]
  | cons c rest =>
    by_cases h : c = '.'
    · subst h; simp [dropDot]
    · have : dropDot (c :: rest) = c :: rest := by
        unfold dropDot
        split
        · rename_i heq
          cases heq
          simp at h
        · rfl
      simp [this]

/-- The scanning loop of `parsePath`, operating on the characters after the
optional leading `$`.  Returns the parsed tokens of the remainder or the
first error raised.  The `fuel` argument makes the recursion structural (so
that concrete selectors evaluate definitionally); every step consumes at
least one character, so any fuel exceeding the length of the input gives the
loop's meaning (`parseLoopFuel_irrel` below) and `parseLoop` supplies
`cs.length + 1`. -/
def parseLoopFuel : Nat → List Char → Except ParseErr (List Token)
  | 0, _ => .error .unclosedBracket
  | _ + 1, [] => .ok []
  | fuel + 1, c :: rest =>
      if c = '[' then
        match splitAtClose rest with
        | none => .error .unclosedBracket
        | some (inside, after) =>
            if inside = ['*'] then
              match parseLoopFuel fuel (dropDot after) with
              | .error e => .error e
              | .ok toks => .ok (.allItems :: toks)
            else if inside ≠ [] ∧ inside.all isDigitC then
              match parseLoopFuel fuel (dropDot after) with
              | .error e => .error e
              | .ok toks => .ok (.index (digitsToNat inside) :: toks)
            else .error (.badAccessor (String.mk inside))
      else if isDigitC c then
        let ds := c :: rest.takeWhile isDigitC
        let rem := rest.dropWhile isDigitC
        match parseLoopFuel fuel (dropDot rem) with
        | .error e => .error e
        | .ok toks => .ok (.index (digitsToNat ds) :: toks)
      else if isFieldStart c then
        let nm := c :: rest.takeWhile isFieldCont
        let rem := rest.dropWhile isFieldCont
        match parseLoopFuel fuel (dropDot rem) with
        | .error e => .error e
        | .ok toks => .ok (.field (String.mk nm) :: toks)
      else if c = '.' then parseLoopFuel fuel rest
      else .error (.badChar (String.mk (c :: rest)))

/-- The scanning loop of `parsePath` with enough fuel to run to the end. -/
def parseLoop (cs : List Char) : Except ParseErr (List Token) :=
  parseLoopFuel (cs.length + 1) cs

/-- `parsePath` from the source: compiles a selector string to tokens, or
raises a `PathSyntaxError` (modelled with `Except.error`).  A non-string or
empty input, `$`, and a blank string all compile to `[Root]`. -/
def parsePath (pathStr : String) : Except ParseErr (List Token) :=
  if pathStr = "" then .ok [.root]
  else
    let trimmed := jsTrim pathStr
    if trimmed = "$" ∨ trimmed = "" then .ok [.root]
    else
      let startTok : List Token :=
        if startsWithS trimmed "$" then [.root] else []
      let restChars : List Char :=
        if startsWithS trimmed "$" then dropDot (trimmed.data.drop 1)
        else trimmed.data
      match parseLoop restChars with
      | .error e => .error e
      | .ok toks =>
          let all := startTok ++ toks
          .ok (if all = [] then [.root] else all)

/-! ## Path engine: evaluator (`evaluatePath` in `src/path/extractor.js`) -/

/-- One segment of a concrete path: a field name (string) or an array index
(number), exactly as the source pushes `token.value` or `idx`. -/
inductive Seg where
  | fld (s : String)
  | idx (n : Nat)
deriving DecidableEq, Repr

/-- The string a segment contributes when a concrete path is joined with
`'.'` (JavaScript implicitly stringifies numeric segments). -/
def Seg.str : Seg → String
  | .fld s => s
  | .idx n => toString n

/-- A match produced by the evaluator: a value together with the concrete
path at which it was found. -/
structure PMatch where
  value : Json
  path : List Seg
deriving DecidableEq, Repr

/-- One step of the evaluator: how a single token maps one current match to
the next matches.  Field reads follow JavaScript semantics: `token.value in
value` is true for own keys and for `Object.prototype` keys, and the read
then yields the own value or the inherited native function. -/
def evalStep (tok : Token) (m : PMatch) : List PMatch :=
  match tok with
  | .root => [m]
  | .field f =>
      match m.value with
      | .obj fs =>
          match alookup fs f with
          | some v => [⟨v, m.path ++ [.fld f]⟩]
          | none =>
              if f ∈ protoKeys then [⟨.native f, m.path ++ [.fld f]⟩] else []
      | _ => []
  | .allItems =>
      match m.value with
      | .arr xs => xs.enum.map (fun p => ⟨p.2, m.path ++ [.idx p.1]⟩)
      | _ => []
  | .index n =>
      match m.value with
      | .arr xs =>
          match xs.get? n with
          | some x => [⟨x, m.path ++ [.idx n]⟩]
          | none => []
      | _ => []

/-- `evaluatePath` on an already-parsed token list: fold every token over the
current match set, starting from the root match. -/
def evaluatePath (data : Json) (ast : List Token) : List PMatch :=
  ast.foldl (fun rs tok => rs.flatMap (evalStep tok)) [⟨data, []⟩]

/-- `evaluatePathValues` on a token list: just the matched values. -/
def evaluatePathValues (data : Json) (ast : List Token) : List Json :=
  (evaluatePath data ast).map (·.value)

/-- `evaluatePathSingle` on a token list: the first matched value, or
`undefined` (here `none`). -/
def evaluatePathSingle (data : Json) (ast : List Token) : Option Json :=
  (evaluatePathValues data ast).head?

/-- `evaluatePath` on a path string (parses first, so it can raise). -/
def evaluatePathS (data : Json) (pathStr : String) :
    Except ParseErr (List PMatch) :=
  match parsePath pathStr with
  | .error e => .error e
  | .ok ast => .ok (evaluatePath data ast)

/-- `evaluatePathSingle` on a path string. -/
def evaluatePathSingleS (data : Json) (pathStr : String) :
    Except ParseErr (Option Json) :=
  match parsePath pathStr with
  | .error e => .error e
  | .ok ast => .ok (evaluatePathSingle data ast)

/-- `getPathDepth` on a token list: the number of Field, AllItems and Index
tokens; Root adds no depth. -/
def getPathDepth (ast : List Token) : Nat :=
  ast.foldl (fun d tok => match tok with | .root => d | _ => d + 1) 0

/-- `getPathDepth` on a path string. -/
def getPathDepthS (pathStr : String) : Except ParseErr Nat :=
  match parsePath pathStr with
  | .error e => .error e
  | .ok ast => .ok (getPathDepth ast)

/-! ## Shared path utilities of the merge engine (`getNestedValue`,
`resolvePkValue` in the application entry module) -/

/-- Does the string denote a canonical array index (the keys under which
JavaScript arrays store their elements)?  Leading zeros are not canonical:
`a["01"]` is `undefined`. -/
def toArrayIx (s : String) : Option Nat :=
  let cs := s.toList
  if cs ≠ [] ∧ cs.all isDigitC ∧ (s = "0" ∨ cs.head? ≠ some '0') then
    some (digitsToNat cs)
  else none

/-- JavaScript property read `current[part]` as used by `getNestedValue`:
own keys and `Object.prototype` keys on objects; canonical indices and
`length` on arrays and strings.  (Method properties of `Array.prototype` and
`String.prototype` are not modelled; no claim touches them.) -/
def jsIndexGet : Json → String → Option Json
  | .obj fs, part =>
      match alookup fs part with
      | some v => some v
      | none => if part ∈ protoKeys then some (.native part) else none
  | .arr xs, part =>
      if part = "length" then some (.num (Int.ofNat xs.length))
      else
        match toArrayIx part with
        | some i => xs.get? i
        | none => none
  | .str s, part =>
      if part = "length" then some (.num (Int.ofNat s.length))
      else
        match toArrayIx part with
        | some i => (s.toList.get? i).map (fun c => .str (String.mk [c]))
        | none => none
  | _, _ => none

/-- The walking loop of `getNestedValue`: `none` models `undefined`; a
`null` intermediate makes the whole walk `undefined`, but `null` may be the
final result. -/
def getNestedWalk (cur : Option Json) : List String → Option Json
  | [] => cur
  | p :: ps =>
      match cur with
      | none => none
      | some .null => none
      | some v => getNestedWalk (jsIndexGet v p) ps

/-- `getNestedValue(obj, path)` from the source: splits `path` on `.` and
walks the object; falsy `obj` or an empty path give `undefined`. -/
def getNestedValue (obj : Json) (path : String) : Option Json :=
  if ¬ jsTruthy obj ∨ path = "" then none
  else getNestedWalk (some obj) (splitOnS path '.')

/-- `resolvePkValue(obj, pkField)` from the source: composite keys (with a
`+`) join their stringified component values with `|`; a missing (`null` or
`undefined`) component voids the whole key. -/
def resolvePkValue (obj : Json) (pkField : String) : Option Json :=
  if ¬ jsTruthy obj ∨ pkField = "" then none
  else if ¬ pkField.data.contains '+' then getNestedValue obj pkField
  else
    let parts := splitOnS pkField '+'
    let values := parts.map (fun p => getNestedValue obj (jsTrim p))
    if values.any (fun v => v = none ∨ v = some .null) then none
    else
      some (.str (String.intercalate "|"
        (values.map (fun v => jsString (v.getD .null)))))

/-- JavaScript `a || b` where `a` may be `undefined` (`none`). -/
def jsOrOpt (a : Option Json) (b : Json) : Json :=
  match a with
  | some v => if jsTruthy v then v else b
  | none => b

/-! ## Identity merge engine (`deepMergeWithTracking`, `computeNodeMappings`
in the application entry module) -/

/-- The `sourceInfo` argument of `deepMergeWithTracking`. -/
structure SourceInfo where
  callId : String
  callName : String
  sourceIndex : Nat
deriving DecidableEq, Repr

/-- One conflict record pushed onto `conflicts[fullPath]`. -/
structure ConflictRec where
  callId : String
  callName : String
  oldValue : Json
  newValue : Json
  sourceIndex : Nat
deriving DecidableEq, Repr

/-- One provenance record pushed onto `propertySources[fullPath]`. -/
structure PropSourceRec where
  callId : String
  callName : String
  value : Json
  sourceIndex : Nat
deriving DecidableEq, Repr

/-- Dotted-path extension: `path ? path + "." + key : key`. -/
def joinPath (path key : String) : String :=
  if path = "" then key else path ++ "." ++ key

/-- The conflict map: property path to pushed conflict records. -/
abbrev ConflictMap := List (String × List ConflictRec)

/-- The provenance map: property path to pushed provenance records. -/
abbrev PropSourceMap := List (String × List PropSourceRec)

mutual

/-- `deepMergeWithTracking(target, source, sourceInfo, conflicts,
propertySources, path)` from the source, as a pure state transformer on the
triple (target object fields, conflict map, provenance map).  The source
object is given by its entry list (`Object.entries`) and processed entry by
entry through `deepMergeEntry`. -/
def deepMergeWithTracking (target : List (String × Json))
    (source : List (String × Json)) (info : SourceInfo)
    (conflicts : ConflictMap) (propertySources : PropSourceMap)
    (path : String) :
    List (String × Json) × ConflictMap × PropSourceMap :=
  match source with
  | [] => (target, conflicts, propertySources)
  | (key, value) :: rest =>
      let r := deepMergeEntry target key value info conflicts propertySources
        path
      deepMergeWithTracking r.1 rest info r.2.1 r.2.2 path

/-- The body of `deepMergeWithTracking`'s `for` loop for one entry `(key,
value)` of the source object (split out so the recursion is structural): a
non-null, non-array object merges recursively (resetting a non-object
`target[key]` to `{}` first); any other value is a leaf that records a
conflict when `target[key]` exists and differs, always records provenance,
and always overwrites `target[key]`. -/
def deepMergeEntry (target : List (String × Json)) (key : String)
    (value : Json) (info : SourceInfo) (conflicts : ConflictMap)
    (propertySources : PropSourceMap) (path : String) :
    List (String × Json) × ConflictMap × PropSourceMap :=
  match value with
  | .obj innerFields =>
      let sub : List (String × Json) :=
        match alookup target key with
        | some (.obj fs) => fs
        | _ => []
      let res := deepMergeWithTracking sub innerFields info conflicts
        propertySources (joinPath path key)
      (jsSet target key (.obj res.1), res.2.1, res.2.2)
  | _ =>
      let fullPath := joinPath path key
      let conflicts' :=
        match alookup target key with
        | some old =>
            if old ≠ value then
              jsPush conflicts fullPath
                ⟨info.callId, info.callName, old, value, info.sourceIndex⟩
            else conflicts
        | none => conflicts
      let props' := jsPush propertySources fullPath
        ⟨info.callId, info.callName, value, info.sourceIndex⟩
      (jsSet target key value, conflicts', props')

end

/-- `Object.entries` of a value: fields of an object, indexed elements of an
array, indexed characters of a string, and nothing for primitives. -/
def jsEntries : Json → List (String × Json)
  | .obj fs => fs
  | .arr xs => xs.enum.map (fun p => (toString p.1, p.2))
  | .str s => s.toList.enum.map (fun p => (toString p.1, .str (String.mk [p.2])))
  | _ => []

/-- The merge fold performed for one merge group in the second pass of
`computeNodeMappings`: fold `deepMergeWithTracking` over the group's
instances in processing order, starting from an empty merged object and
empty conflict/provenance maps. -/
def mergeFold (items : List (SourceInfo × Json)) :
    List (String × Json) × ConflictMap × PropSourceMap :=
  items.foldl
    (fun acc item =>
      deepMergeWithTracking acc.1 (jsEntries item.2) item.1 acc.2.1 acc.2.2 "")
    ([], [], [])

/-! ## Extraction engine (`src/extraction/engine.js`) -/

/-- One extraction rule of a call: an entity type and a path string. -/
structure Extraction where
  entity : String
  path : String
deriving DecidableEq, Repr

/-- An entity configuration.  A missing (`undefined`) string field is
modelled by the empty string, matching the `cfg.pk || 'id'` defaulting reads
of the source. -/
structure EntityConfig where
  id : String
  label : String
  pk : String
  displayField : String
  color : String
deriving DecidableEq, Repr

/-- One call (document): its id, name, parsed JSON (`none` when the text did
not parse), and extraction rules. -/
structure Call where
  id : String
  name : String
  parsedJson : Option Json
  extractions : List Extraction
deriving DecidableEq, Repr

/-- A declared relation.  The source destructures these fields as
`{ from: fromType, to: toType, toFk, fromPk }`; `from` is a Lean keyword so
the fields are named `fromType`/`toType` here. -/
structure Relation where
  fromType : String
  toType : String
  toFk : String
  fromPk : String
deriving DecidableEq, Repr

/-- An extracted entity as pushed by `extractFromCall`. -/
structure EEntity where
  id : String
  type : String
  pk : Json
  data : Json
  label : String
  color : String
  callId : String
  extractPath : String
deriving DecidableEq, Repr

/-- A graph edge (`intra` from nesting, `inter` from relations). -/
structure GEdge where
  id : String
  source : String
  target : String
  edgeType : String
deriving DecidableEq, Repr

/-- A value of the `extractedByPath` tracking map of `extractFromCall`. -/
structure TrackInfo where
  entityId : String
  pathKey : String
deriving DecidableEq, Repr

/-- Default a missing (falsy, i.e. empty) configuration string, as in
`entityConfig.pk || 'id'`. -/
def defaultStr (s dflt : String) : String := if s = "" then dflt else s

/-- The parent scan of `extractFromCall`.  The source iterates the tracking
map in insertion order and treats an entry as a parent candidate when the
candidate path followed by `.` or `[` is a string prefix of the child's path
key.  Its tie-break condition
`existingPath.length > extractedByPath.get(parentEntityId.split('|')[1])?.length`
reads the `length` property of either `undefined` or of a tracking-map value
object, which is `undefined` in both cases, so the `>` comparison is always
false: once a parent is found it is never replaced, and the first matching
entry in insertion order wins. -/
def findParent (tracked : List (String × TrackInfo)) (pathKey : String) :
    Option String :=
  tracked.foldl
    (fun acc p =>
      match acc with
      | some _ => acc
      | none =>
          if startsWithS pathKey (p.1 ++ ".") || startsWithS pathKey (p.1 ++ "[")
          then some p.2.entityId
          else none)
    none

/-- The per-match body of `extractFromCall`: skip non-object and array
matches, skip a missing primary key, otherwise build the entity, find its
intra-call parent and register the match for later parent lookups. -/
def processMatch (callId : String) (ext : Extraction) (cfg : EntityConfig)
    (st : List EEntity × List GEdge × List (String × TrackInfo))
    (res : PMatch) :
    Except ParseErr (List EEntity × List GEdge × List (String × TrackInfo)) :=
  match res.value with
  | .obj fs => do
      let pkv ← evaluatePathSingleS (.obj fs) (defaultStr cfg.pk "id")
      match pkv with
      | none => pure st
      | some .null => pure st
      | some pkValue => do
          let entityId := ext.entity ++ "-" ++ jsString pkValue
          let display ← evaluatePathSingleS (.obj fs)
            (defaultStr cfg.displayField "id")
          let pathKey := String.intercalate "." (res.path.map Seg.str)
          let parentId := findParent st.2.2 pathKey
          let tracked := jsSet st.2.2 pathKey ⟨entityId, pathKey⟩
          let label :=
            match display with
            | some v => jsString v
            | none => jsString pkValue
          let ent : EEntity := ⟨entityId, ext.entity, pkValue, .obj fs, label,
            defaultStr cfg.color "#4F46E5", callId, pathKey⟩
          let edges :=
            match parentId with
            | some pid =>
                st.2.1 ++ [⟨"intra-" ++ pid ++ "-" ++ entityId, pid, entityId,
                  "intra"⟩]
            | none => st.2.1
          pure (st.1 ++ [ent], edges, tracked)
  | _ => pure st

/-- `extractFromCall(callId, json, extractions, entityConfigMap)` from the
source: filter out blank rules, sort by path depth (shallowest first, the
sort is stable), then for each rule evaluate its path and process every
match.  Parse errors in a rule path or key path propagate, modelling the
JavaScript exception. -/
def extractFromCall (callId : String) (json : Json)
    (extractions : List Extraction)
    (entityConfigMap : List (String × EntityConfig)) :
    Except ParseErr (List EEntity × List GEdge) := do
  let filtered := extractions.filter
    (fun e => e.entity != "" && e.path != "")
  let withDepth ← filtered.mapM (fun e => do
    let d ← getPathDepthS e.path
    pure (d, e))
  let sorted := (stableSort (fun a b => Nat.ble a.1 b.1) withDepth).map (·.2)
  let st ← sorted.foldlM
    (fun st ext =>
      match alookup entityConfigMap ext.entity with
      | none => pure st
      | some cfg => do
          let results ← evaluatePathS json ext.path
          results.foldlM (fun st res => processMatch callId ext cfg st res) st)
    (([], [], []) :
      List EEntity × List GEdge × List (String × TrackInfo))
  pure (st.1, st.2.1)

/-- Insert an entity into the per-type primary-key index of
`calculateInterEdges` (`Map<type, Map<String(pk), id>>`; a later entity with
the same type and stringified key overwrites the indexed id). -/
def addToIndex (ix : List (String × List (String × String)))
    (ty pkS id : String) : List (String × List (String × String)) :=
  match alookup ix ty with
  | some m => jsSet ix ty (jsSet m pkS id)
  | none => ix ++ [(ty, [(pkS, id)])]

/-- The per-type primary-key index of `calculateInterEdges`
(`Map<type, Map<String(pk), id>>`). -/
def buildEntityIndex (entities : List EEntity) :
    List (String × List (String × String)) :=
  entities.foldl (fun ix e => addToIndex ix e.type (jsString e.pk) e.id) []

/-- The edge accumulator of `calculateInterEdges`: the edge list and the
`edgeSet` of already-used edge-id strings. -/
abbrev EdgeState := List GEdge × List String

/-- The body of `calculateInterEdges`'s inner loop for one `to`-entity:
evaluate the foreign-key path on its raw data (`undefined` and `null` are
silent misses), look the stringified value up in the `from`-type index
(a miss is silent), and emit an edge unless its id string was already
used. -/
def interToStep (fromEntities : List (String × String)) (rel : Relation)
    (st : EdgeState) (toE : EEntity) : Except ParseErr EdgeState :=
  match evaluatePathSingleS toE.data rel.toFk with
  | .error e => .error e
  | .ok none => .ok st
  | .ok (some fkv) =>
      if fkv = .null then .ok st
      else
        match alookup fromEntities (jsString fkv) with
        | none => .ok st
        | some fromId =>
            let edgeId := "inter-" ++ fromId ++ "-" ++ toE.id
            if edgeId ∈ st.2 then .ok st
            else
              .ok (st.1 ++ [⟨edgeId, fromId, toE.id, "inter"⟩],
                st.2 ++ [edgeId])

/-- The body of `calculateInterEdges`'s outer loop for one relation: skip a
falsy foreign-key path, a `from` type with no indexed entities, and an empty
`to`-entity list, otherwise run the inner loop. -/
def interRelStep (entities : List EEntity)
    (entityIndex : List (String × List (String × String)))
    (st : EdgeState) (rel : Relation) : Except ParseErr EdgeState :=
  if rel.toFk = "" then .ok st
  else
    match alookup entityIndex rel.fromType with
    | none => .ok st
    | some fromEntities =>
        let toEntities := entities.filter (fun e => e.type == rel.toType)
        if toEntities.isEmpty then .ok st
        else toEntities.foldlM (interToStep fromEntities rel) st

/-- `calculateInterEdges(entities, relations, entityConfigMap)` from the
source: index entities by type and stringified primary key, then for each
relation look every `to`-entity's stringified foreign-key value up in the
`from`-type index; a hit emits an edge unless its id string is already
present.  (The source also reads `entityConfigMap[fromType]` into an unused
local, so the map is a parameter here but never used.) -/
def calculateInterEdges (entities : List EEntity) (relations : List Relation)
    (_entityConfigMap : List (String × EntityConfig)) :
    Except ParseErr (List GEdge) := do
  let entityIndex := buildEntityIndex entities
  let st ← relations.foldlM (interRelStep entities entityIndex) ([], [])
  pure st.1

/-- Build the entity-configuration map `entityConfigMap[ec.id] = ec`. -/
def buildConfigMap (entityConfigs : List EntityConfig) :
    List (String × EntityConfig) :=
  entityConfigs.foldl (fun m ec => jsSet m ec.id ec) []

/-- `extractAllEntities` from the source, with the store reads
(`callsStore.getAllCalls()`, `mappingStore.getAllEntities()`,
`mappingStore.getRelations()`) passed in as the input snapshot: run
`extractFromCall` on every call that has parsed JSON and extraction rules,
then derive the inter-call edges. -/
def extractAllEntities (calls : List Call) (entityConfigs : List EntityConfig)
    (relations : List Relation) :
    Except ParseErr (List EEntity × List GEdge × List GEdge) := do
  let entityConfigMap := buildConfigMap entityConfigs
  let st ← calls.foldlM
    (fun (st : List EEntity × List GEdge) call =>
      match call.parsedJson with
      | none => pure st
      | some j =>
          if !jsTruthy j || call.extractions.isEmpty then pure st
          else do
            let r ← extractFromCall call.id j call.extractions entityConfigMap
            pure (st.1 ++ r.1, st.2 ++ r.2))
    ([], [])
  let interEdges ← calculateInterEdges st.1 relations entityConfigMap
  pure (st.1, st.2, interEdges)

/-! ## Node mappings with identity merge (`computeNodeMappings` in the
application entry module) -/

/-- One element of a merge group collected in the first pass of
`computeNodeMappings`. -/
structure GroupItem where
  nodeId : String
  data : Json
  entityConfig : EntityConfig
  entityType : String
deriving DecidableEq, Repr

/-- One element of a merged mapping's `sources` list. -/
structure SourceEntry where
  callId : String
  callName : String
  nodeId : String
  data : Json
deriving DecidableEq, Repr

/-- A node mapping: either the plain object built for array matches and for
matches without a resolvable primary key, or the merged object built for a
merge group's canonical node. -/
inductive Mapping where
  | plain (entityType entityLabel color : String) (data : Json)
  | merged (entityType entityLabel color : String) (data : Json)
      (sources : List SourceEntry) (propertySources : PropSourceMap)
      (conflicts : ConflictMap) (sourceCount : Nat) (hasConflicts : Bool)
deriving DecidableEq, Repr

/-- State after the first pass of `computeNodeMappings`: the plain mappings
written so far and the merge groups, keyed by `entityType + ":" +
String(pkValue)` in insertion order. -/
structure FirstPassState where
  mappings : List (String × Mapping)
  groups : List (String × List GroupItem)
deriving DecidableEq, Repr

/-- The result of `computeNodeMappings`. -/
structure NodeMappings where
  mappings : List (String × Mapping)
  mergedNodes : List (String × String)
deriving DecidableEq, Repr

/-- The node id of a match: `callId + ":" + ['$', ...path].join('.')`. -/
def mkNodeId (callId : String) (path : List Seg) : String :=
  callId ++ ":" ++ String.intercalate "." ("$" :: path.map Seg.str)

/-- The per-match body of the first pass of `computeNodeMappings`: arrays
become plain mappings labelled with their length; object matches with a
resolvable primary key join a merge group; object matches without one become
plain mappings; anything else is skipped. -/
def processResult (call : Call) (ext : Extraction) (cfg : EntityConfig)
    (st : FirstPassState) (res : PMatch) : FirstPassState :=
  match res.value with
  | .arr xs =>
      let nodeId := mkNodeId call.id res.path
      let label := defaultStr cfg.label ext.entity
      ⟨jsSet st.mappings nodeId
        (.plain ext.entity (label ++ " (" ++ toString xs.length ++ ")")
          (defaultStr cfg.color "#4F46E5") (.arr xs)),
       st.groups⟩
  | .obj fs =>
      let nodeId := mkNodeId call.id res.path
      let pkField := defaultStr cfg.pk "id"
      match resolvePkValue (.obj fs) pkField with
      | some pkv =>
          if pkv = .null then
            let displayField := defaultStr cfg.displayField "id"
            let displayValue := jsOrOpt (getNestedValue (.obj fs) displayField)
              (jsOrOpt (jsIndexGet (.obj fs) "id") (.str ext.entity))
            ⟨jsSet st.mappings nodeId
              (.plain ext.entity (jsString displayValue)
                (defaultStr cfg.color "#4F46E5") (.obj fs)),
             st.groups⟩
          else
            let groupKey := ext.entity ++ ":" ++ jsString pkv
            ⟨st.mappings,
             jsPush st.groups groupKey ⟨nodeId, .obj fs, cfg, ext.entity⟩⟩
      | none =>
          let displayField := defaultStr cfg.displayField "id"
          let displayValue := jsOrOpt (getNestedValue (.obj fs) displayField)
            (jsOrOpt (jsIndexGet (.obj fs) "id") (.str ext.entity))
          ⟨jsSet st.mappings nodeId
            (.plain ext.entity (jsString displayValue)
              (defaultStr cfg.color "#4F46E5") (.obj fs)),
           st.groups⟩
  | _ => st

/-- The first pass of `computeNodeMappings`: walk every call's extractions,
evaluate each path and process every match. -/
def computeFirstPass (calls : List Call)
    (entityMap : List (String × EntityConfig)) :
    Except ParseErr FirstPassState :=
  calls.foldlM
    (fun st call =>
      match call.parsedJson with
      | none => pure st
      | some j =>
          if !jsTruthy j then pure st
          else
            call.extractions.foldlM
              (fun st ext =>
                if ext.entity = "" ∨ ext.path = "" then pure st
                else
                  match alookup entityMap ext.entity with
                  | none => pure st
                  | some cfg => do
                      let results ← evaluatePathS j ext.path
                      pure (results.foldl (processResult call ext cfg) st))
              st)
    ⟨[], []⟩

/-- The source infos of a group's instances, in processing order: the call
id is the node id's prefix before the first `:`, the call name falls back to
the call id when the call is unknown or its name is empty, and the source
index is the instance's position in the group. -/
def groupSourceInfos (calls : List Call) (group : List GroupItem) :
    List (SourceInfo × GroupItem) :=
  group.enum.map
    (fun p =>
      let callId := ((splitOnS p.2.nodeId ':').headD "")
      let callName :=
        match calls.find? (fun c => c.id == callId) with
        | some c => if c.name = "" then callId else c.name
        | none => callId
      (⟨callId, callName, p.1⟩, p.2))

/-- The second pass of `computeNodeMappings`: for every group, the first
instance is canonical; merge all instances with tracking, record every later
instance as a duplicate redirecting to the canonical node, and store the
merged mapping under the canonical node id. -/
def computeSecondPass (calls : List Call) (fp : FirstPassState) :
    NodeMappings :=
  let st := fp.groups.foldl
    (fun (st : List (String × Mapping) × List (String × String)) g =>
      match g.2 with
      | [] => st
      | canonical :: _ =>
          let cfg := canonical.entityConfig
          let displayField := defaultStr cfg.displayField "id"
          let displayValue := jsOrOpt (getNestedValue canonical.data displayField)
            (jsOrOpt (jsIndexGet canonical.data "id") (.str canonical.entityType))
          let infos := groupSourceInfos calls g.2
          let merged := mergeFold (infos.map (fun p => (p.1, p.2.data)))
          let sources := infos.map
            (fun p => SourceEntry.mk p.1.callId p.1.callName p.2.nodeId p.2.data)
          let mergedNodes' := (infos.drop 1).foldl
            (fun mn p => jsSet mn p.2.nodeId canonical.nodeId) st.2
          let mapping := Mapping.merged canonical.entityType
            (jsString displayValue) (defaultStr cfg.color "#4F46E5")
            (.obj merged.1) sources merged.2.2 merged.2.1 g.2.length
            (merged.2.1.length != 0)
          (jsSet st.1 canonical.nodeId mapping, mergedNodes'))
    (fp.mappings, [])
  ⟨st.1, st.2⟩

/-- `computeNodeMappings(calls, nodes)` from the source (the `nodes`
parameter is unread there and omitted here), with the entity-configuration
store read passed in as the input snapshot. -/
def computeNodeMappings (calls : List Call)
    (entityConfigs : List EntityConfig) : Except ParseErr NodeMappings := do
  let fp ← computeFirstPass calls (buildConfigMap entityConfigs)
  pure (computeSecondPass calls fp)

/-- The core pipeline of one rebuild over a fixed input snapshot:
extraction with intra- and inter-edge derivation, followed by the node
mappings with identity merge. -/
structure PipelineOut where
  entities : List EEntity
  intraEdges : List GEdge
  interEdges : List GEdge
  nodeMappings : NodeMappings
deriving DecidableEq, Repr

/-- Run extraction, edge derivation and merge over one immutable snapshot of
the inputs (documents with rules, entity configurations, relations). -/
def runPipeline (calls : List Call) (entityConfigs : List EntityConfig)
    (relations : List Relation) : Except ParseErr PipelineOut := do
  let e ← extractAllEntities calls entityConfigs relations
  let m ← computeNodeMappings calls entityConfigs
  pure ⟨e.1, e.2.1, e.2.2, m⟩

/-! ## Flattening, path regions and the specified merge fold (claim C1) -/

mutual

/-- Flatten an object's entries to dotted leaf paths: nested non-null,
non-array objects recurse, every other value is a leaf recorded at its full
dotted path. -/
def flattenEntries (path : String) : List (String × Json) → List (String × Json)
  | [] => []
  | (k, v) :: rest =>
      flattenVal (joinPath path k) v ++ flattenEntries path rest

/-- Flatten one value located at dotted path `p`. -/
def flattenVal (p : String) : Json → List (String × Json)
  | .obj fs => flattenEntries p fs
  | v => [(p, v)]

end

mutual

/-- The dotted paths of an entry list's nested-object nodes. -/
def objPathsEntries (path : String) : List (String × Json) → List String
  | [] => []
  | (k, v) :: rest =>
      objPathsVal (joinPath path k) v ++ objPathsEntries path rest

/-- The nested-object paths of one value located at dotted path `p`. -/
def objPathsVal (p : String) : Json → List String
  | .obj fs => p :: objPathsEntries p fs
  | _ => []

end

/-- Path `q` strictly extends path `p` by at least one dotted segment. -/
def strictExt (p q : String) : Prop := ∃ r, q = p ++ "." ++ r

/-- Strict dotted extension is decidable (it is a string-prefix test). -/
instance (p q : String) : Decidable (strictExt p q) :=
  decidable_of_iff ((p ++ ".").data.isPrefixOf q.data = true) (by
    rw [List.isPrefixOf_iff_prefix]
    constructor
    · rintro ⟨t, ht⟩
      refine ⟨String.mk t, String.ext ?_⟩
      rw [← ht]
      simp [String.data_append]
    · rintro ⟨r, rfl⟩
      exact ⟨r.data, by simp [String.data_append]⟩)

/-- A key usable for unambiguous dotted flattening: nonempty and without a
dot. -/
def goodKey (k : String) : Bool := k != "" && !(k.data.contains '.')

mutual

/-- Wellformed JSON value for unambiguous flattening: every object along the
tree has duplicate-free, nonempty, dot-free keys. -/
def wfVal : Json → Bool
  | .obj fs => wfFields fs
  | _ => true

/-- Wellformed object entry list. -/
def wfFields : List (String × Json) → Bool
  | [] => true
  | (k, v) :: rest =>
      goodKey k && wfVal v && !((rest.map Prod.fst).contains k) &&
        wfFields rest

end

/-- The accumulator of the merge fold as the specification states it: a
running value per flattened leaf path, plus the conflict and provenance
maps. -/
structure SpecAcc where
  values : List (String × Json)
  conflicts : ConflictMap
  propertySources : PropSourceMap
deriving DecidableEq, Repr

/-- One step of the specified merge fold, for one (source, leaf path, leaf
value) occurrence: the first occurrence of a path sets the value; a later
occurrence with an equal value adds no conflict; a later occurrence with a
different value appends a conflict record; every occurrence appends
provenance and overwrites the value. -/
def specLeafStep (info : SourceInfo) (acc : SpecAcc) (leaf : String × Json) :
    SpecAcc :=
  let conflicts' :=
    match alookup acc.values leaf.1 with
    | some w =>
        if w ≠ leaf.2 then
          jsPush acc.conflicts leaf.1
            ⟨info.callId, info.callName, w, leaf.2, info.sourceIndex⟩
        else acc.conflicts
    | none => acc.conflicts
  ⟨jsSet acc.values leaf.1 leaf.2, conflicts',
    jsPush acc.propertySources leaf.1
      ⟨info.callId, info.callName, leaf.2, info.sourceIndex⟩⟩

/-- The merge fold exactly as the specification describes it: fold every
instance's flattened leaves, in processing order, into the accumulator. -/
def specMergeFold (items : List (SourceInfo × Json)) : SpecAcc :=
  items.foldl
    (fun acc item =>
      (flattenEntries "" (jsEntries item.2)).foldl (specLeafStep item.1) acc)
    ⟨[], [], []⟩

/-- All (source, leaf) occurrences of a group, in processing order. -/
def allLeaves (items : List (SourceInfo × Json)) :
    List (SourceInfo × String × Json) :=
  items.flatMap
    (fun item =>
      (flattenEntries "" (jsEntries item.2)).map (fun l => (item.1, l)))

/-- Path `q` lies in the subtree region rooted at `base`: it is `base`
itself or strictly extends it. -/
def inRegion (base q : String) : Prop := q = base ∨ strictExt base q

/-- Whether a value is a JavaScript array. -/
def isArr : Json → Bool
  | .arr _ => true
  | _ => false

/-- The conflict side of one instance's merge, compared against a fixed
flattened target: for each leaf, a differing existing value at the leaf's
path pushes one conflict record. -/
def conflictFold (info : SourceInfo) (tl : List (String × Json))
    (leaves : List (String × Json)) (c : ConflictMap) : ConflictMap :=
  leaves.foldl
    (fun c l =>
      match alookup tl l.1 with
      | some w =>
          if w ≠ l.2 then
            jsPush c l.1 ⟨info.callId, info.callName, w, l.2, info.sourceIndex⟩
          else c
      | none => c) c

/-- The provenance side of one instance's merge: every leaf pushes one
provenance record at its path. -/
def propFold (info : SourceInfo) (leaves : List (String × Json))
    (p : PropSourceMap) : PropSourceMap :=
  leaves.foldl
    (fun p l =>
      jsPush p l.1 ⟨info.callId, info.callName, l.2, info.sourceIndex⟩) p

/-- The value side of one instance's merge: every leaf overwrites the value
at its path. -/
def valuesFold (leaves : List (String × Json))
    (m : List (String × Json)) : List (String × Json) :=
  leaves.foldl (fun m l => jsSet m l.1 l.2) m

/-- Shape compatibility of two merge instances: no flattened leaf path of
one is an interior (nested-object) path of the other, in either
direction. -/
def compatB (a b : Json) : Bool :=
  ((flattenEntries "" (jsEntries a)).map Prod.fst).all
      (fun q => !((objPathsEntries "" (jsEntries b)).contains q)) &&
    ((objPathsEntries "" (jsEntries a)).all
      (fun q => !(((flattenEntries "" (jsEntries b)).map Prod.fst).contains q)))

/-- The value contributed at path `p` by the most recently processed
occurrence in a leaf-occurrence list, if any. -/
def lastVal (p : String) : List (SourceInfo × String × Json) → Option Json
  | [] => none
  | (_, q, v) :: rest =>
      match lastVal p rest with
      | some w => some w
      | none => if q = p then some v else none

/-- Pairwise shape compatibility of a merge group's instances. -/
def pairwiseCompatB : List (SourceInfo × Json) → Bool
  | [] => true
  | it :: rest =>
      rest.all (fun it2 => compatB it.2 it2.2) && pairwiseCompatB rest

/-- A concrete merge group: two instances of one entity carrying a
conflicting scalar, a conflicting nested property and one fresh field. -/
def mergeGroupExample : List (SourceInfo × Json) :=
  [(⟨"c1", "Call 1", 0⟩,
     .obj [("name", .str "A"), ("meta", .obj [("a", .num 1)])]),
   (⟨"c2", "Call 2", 1⟩,
     .obj [("name", .str "B"), ("meta", .obj [("a", .num 2)]),
           ("email", .str "x@y")])]

instance {e a : Type} [DecidableEq e] [DecidableEq a] :
    DecidableEq (Except e a)
  | .ok x, .ok y =>
      if h : x = y then isTrue (by rw [h]) else
        isFalse (fun hh => h (by cases hh; rfl))
  | .ok _, .error _ => isFalse (fun h => Except.noConfusion h)
  | .error _, .ok _ => isFalse (fun h => Except.noConfusion h)
  | .error x, .error y =>
      if h : x = y then isTrue (by rw [h]) else
        isFalse (fun hh => h (by cases hh; rfl))

/-- The depth one token contributes to `getPathDepth`. -/
def tokenDepth : Token → Nat
  | .root => 0
  | _ => 1

/-- Recursive restatement of `getPathDepth`, convenient for induction. -/
def depthRec : List Token → Nat
  | [] => 0
  | t :: ts => tokenDepth t + depthRec ts

/-- A foreign-key hit: the situation in which the claim expects an edge.
`srcId` is the entity id indexed under the `from` type at the stringified
foreign-key value of `toE`. -/
def FkHit (entities : List EEntity) (relations : List Relation)
    (rel : Relation) (toE : EEntity) (srcId : String) : Prop :=
  rel ∈ relations ∧ rel.toFk ≠ "" ∧ toE ∈ entities ∧ toE.type = rel.toType ∧
  ∃ m fkv, alookup (buildEntityIndex entities) rel.fromType = some m ∧
    evaluatePathSingleS toE.data rel.toFk = .ok (some fkv) ∧ fkv ≠ .null ∧
    alookup m (jsString fkv) = some srcId

/-- The invariant of the edge accumulator of `calculateInterEdges`: the
edge-set is exactly the edge ids, the ids are duplicate-free, and every edge
is justified by a foreign-key hit. -/
def EdgeInv (entities : List EEntity) (relations : List Relation)
    (st : EdgeState) : Prop :=
  st.2 = st.1.map (fun e => e.id) ∧
  (st.1.map (fun e => e.id)).Nodup ∧
  ∀ e ∈ st.1, ∃ rel toE, FkHit entities relations rel toE e.source ∧
    e.target = toE.id ∧ e.id = "inter-" ++ e.source ++ "-" ++ toE.id ∧
    e.edgeType = "inter"

/-- Every item of every merge group has a resolvable, non-null primary key
(with the group's own entity configuration and its `pk || 'id'` default). -/
def KeyedGroups (fp : FirstPassState) : Prop :=
  ∀ gk g, (gk, g) ∈ fp.groups → ∀ item ∈ g,
    ∃ pkv, resolvePkValue item.data (defaultStr item.entityConfig.pk "id") =
      some pkv ∧ pkv ≠ .null

/-- Every mapping is a plain (standalone) mapping. -/
def AllPlain (mappings : List (String × Mapping)) : Prop :=
  ∀ nid mp, (nid, mp) ∈ mappings → ∃ et el c d, mp = .plain et el c d

/-- A duplicate redirection pair justified by a merge group: the duplicate
is a group item's node and the canonical node is the group's first item. -/
def FromGroups (fp : FirstPassState) (pr : String × String) : Prop :=
  ∃ gk g, (gk, g) ∈ fp.groups ∧ (∃ item ∈ g, item.nodeId = pr.1) ∧
    (∃ item0, g.head? = some item0 ∧ item0.nodeId = pr.2)

/-- A merged mapping whose sources all come from one of the merge groups. -/
def SourcesFromGroups (fp : FirstPassState) (mp : Mapping) : Prop :=
  ∀ et el c d srcs ps cf n hc, mp = .merged et el c d srcs ps cf n hc →
    ∀ s ∈ srcs, ∃ gk g item, (gk, g) ∈ fp.groups ∧ item ∈ g ∧
      s.nodeId = item.nodeId ∧ s.data = item.data

/-! ## Theorems -/

theorem foldl_depth_eq (ts : List Token) (d : Nat) :
    List.foldl (fun d tok => match tok with | Token.root => d | _ => d + 1) d ts =
      d + depthRec ts := by
  induction ts generalizing d with
  | nil => simp [depthRec]
  | cons t ts ih =>
    rw [List.foldl_cons, ih]
    have step : (fun (d : Nat) (tok : Token) =>
        match tok with | Token.root => d | _ => d + 1) d t = d + tokenDepth t := by
      cases t <;> rfl
    simp only [step, depthRec]
    omega

theorem getPathDepth_eq_depthRec (ts : List Token) :
    getPathDepth ts = depthRec ts := by
  unfold getPathDepth
  rw [foldl_depth_eq]
  omega

theorem evalStep_path_length {tok : Token} {m m' : PMatch}
    (h : m' ∈ evalStep tok m) :
    m'.path.length = m.path.length + tokenDepth tok := by
  cases tok with
  | root =>
    simp [evalStep] at h
    simp [h, tokenDepth]
  | field f =>
    cases hv : m.value <;> simp [evalStep, hv] at h
    case obj fs =>
      cases hl : alookup fs f with
      | some v =>
        simp [hl] at h
        simp [h, tokenDepth]
      | none =>
        simp [hl] at h
        by_cases hp : f ∈ protoKeys
        · simp [hp] at h
          simp [h, tokenDepth]
        · simp [hp] at h
  | allItems =>
    cases hv : m.value <;> simp [evalStep, hv] at h
    case arr xs =>
      obtain ⟨a, b, hmem⟩ := h
      rw [← hmem.2]
      simp [tokenDepth]
  | index n =>
    cases hv : m.value <;> simp [evalStep, hv] at h
    case arr xs =>
      cases hg : xs[n]? with
      | some x =>
        rw [hg] at h
        simp at h
        simp [h, tokenDepth]
      | none =>
        rw [hg] at h
        simp at h

theorem evaluatePath_foldl_length (ast : List Token) (rs : List PMatch)
    (k : Nat) (hrs : ∀ m ∈ rs, m.path.length = k) :
    ∀ m' ∈ ast.foldl (fun rs tok => rs.flatMap (evalStep tok)) rs,
      m'.path.length = k + depthRec ast := by
  induction ast generalizing rs k with
  | nil =>
    intro m' hm'
    simp at hm'
    simp [depthRec, hrs m' hm']
  | cons t ts ih =>
    intro m' hm'
    simp only [List.foldl_cons] at hm'
    have hnext : ∀ m ∈ rs.flatMap (evalStep t),
        m.path.length = k + tokenDepth t := by
      intro m hm
      obtain ⟨m0, hm0, hstep⟩ := List.mem_flatMap.mp hm
      rw [evalStep_path_length hstep, hrs m0 hm0]
    have := ih _ _ hnext m' hm'
    rw [this]
    simp [depthRec]
    omega

/-- C10: every match returned by the evaluator has a concrete path whose
segment count equals the compiled path's depth (the number of non-Root
tokens): each Field, Index, or AllItems token appends exactly one segment to
the concrete path and Root appends none. -/
theorem c10_match_path_length (data : Json) (ast : List Token) (m : PMatch)
    (h : m ∈ evaluatePath data ast) : m.path.length = getPathDepth ast := by
  have := evaluatePath_foldl_length ast [⟨data, []⟩] 0
    (by intro m hm; simp at hm; simp [hm]) m h
  rw [getPathDepth_eq_depthRec]
  simpa using this

/-- Witness for C10 at a concrete input: evaluating `a[*]` (depth 2) on
`{a:[1]}` returns the match `1` at concrete path `[a, 0]`, of length 2. -/
theorem c10_witness :
    (⟨.num 1, [.fld "a", .idx 0]⟩ : PMatch) ∈
      evaluatePath (.obj [("a", .arr [.num 1])]) [.field "a", .allItems] ∧
    ([Seg.fld "a", Seg.idx 0].length =
      getPathDepth [.field "a", .allItems]) :=
  ⟨by decide,
   c10_match_path_length (.obj [("a", .arr [.num 1])]) [.field "a", .allItems]
     ⟨.num 1, [.fld "a", .idx 0]⟩ (by decide)⟩

/-- C9: the extraction, edge-derivation and merge pipeline is a pure,
deterministic function of its input snapshot (all store reads are passed in
as explicit arguments, and the embedded definitions are total functions), so
re-running it on unchanged input yields identical entity, edge and conflict
sets. -/
theorem c9_pipeline_deterministic (calls : List Call)
    (entityConfigs : List EntityConfig) (relations : List Relation) :
    runPipeline calls entityConfigs relations =
      runPipeline calls entityConfigs relations := rfl

/-- C5: the evaluator is total (it is a Lean function) and silent on
mismatches: a Field token applied to an array, a Field whose key is neither
an own key nor inherited, an Index or AllItems token applied to a non-array,
and an out-of-range Index all contribute no matches; in particular
evaluating `a.b` on data whose `a` is an array or missing, or on non-object
data, returns an empty match list rather than an error. -/
theorem c5_evaluate_never_raises :
    (∀ (f : String) (m : PMatch) (xs : List Json),
       m.value = .arr xs → evalStep (.field f) m = []) ∧
    (∀ (f : String) (m : PMatch) (fs : List (String × Json)),
       m.value = .obj fs → alookup fs f = none → f ∉ protoKeys →
       evalStep (.field f) m = []) ∧
    (∀ (n : Nat) (m : PMatch), (∀ xs, m.value ≠ .arr xs) →
       evalStep (.index n) m = []) ∧
    (∀ (m : PMatch), (∀ xs, m.value ≠ .arr xs) → evalStep .allItems m = []) ∧
    (∀ (n : Nat) (m : PMatch) (xs : List Json), m.value = .arr xs →
       xs.length ≤ n → evalStep (.index n) m = []) ∧
    (∀ (fs : List (String × Json)),
       (alookup fs "a" = none ∨ ∃ xs, alookup fs "a" = some (.arr xs)) →
       evaluatePathS (.obj fs) "a.b" = .ok []) ∧
    (∀ (data : Json), (∀ fs, data ≠ .obj fs) →
       evaluatePathS data "a.b" = .ok []) := by
  have hp : parsePath "a.b" = .ok [.field "a", .field "b"] := by decide
  refine ⟨?_, ?_, ?_, ?_, ?_, ?_, ?_⟩
  · intro f m xs hv
    simp [evalStep, hv]
  · intro f m fs hv hl hproto
    simp [evalStep, hv, hl, hproto]
  · intro n m hv
    cases hm : m.value <;> simp [evalStep, hm]
    case arr xs => exact absurd hm (hv xs)
  · intro m hv
    cases hm : m.value <;> simp [evalStep, hm]
    case arr xs => exact absurd hm (hv xs)
  · intro n m xs hv hlen
    simp [evalStep, hv, List.getElem?_eq_none hlen]
  · intro fs hcase
    simp only [evaluatePathS, hp, evaluatePath, List.foldl_cons,
      List.foldl_nil]
    rcases hcase with hnone | ⟨xs, harr⟩
    · have : "a" ∉ protoKeys := by decide
      simp [evalStep, hnone, this]
    · simp [evalStep, harr]
  · intro data hobj
    simp only [evaluatePathS, hp, evaluatePath, List.foldl_cons,
      List.foldl_nil]
    cases hd : data <;> simp [evalStep]
    case obj fs => exact absurd hd (hobj fs)

/-- Witness for C5 at concrete inputs: `a.b` on `{a:[1]}` (an array at `a`)
and on `{b:2}` (missing `a`) both evaluate to an empty match list. -/
theorem c5_witness :
    evaluatePathS (.obj [("a", .arr [.num 1])]) "a.b" = .ok [] ∧
    evaluatePathS (.obj [("b", .num 2)]) "a.b" = .ok [] :=
  ⟨c5_evaluate_never_raises.2.2.2.2.2.1 [("a", .arr [.num 1])]
     (Or.inr ⟨[.num 1], rfl⟩),
   c5_evaluate_never_raises.2.2.2.2.2.1 [("b", .num 2)] (Or.inl rfl)⟩

/-- C3 counterexample: the claim says a Field token matches only an own key
and that an inherited prototype key such as `toString` yields no match; but
the source tests `token.value in value`, and the JavaScript `in` operator
sees inherited keys, so evaluating the path `toString` on the empty object
(which has no own key at all) yields one match carrying the inherited
native function. -/
theorem c3_counterexample :
    alookup ([] : List (String × Json)) "toString" = none ∧
    parsePath "toString" = .ok [.field "toString"] ∧
    evaluatePath (.obj []) [.field "toString"] =
      [⟨.native "toString", [.fld "toString"]⟩] := by
  refine ⟨rfl, by decide, by decide⟩

/-- C3 amended: a Field token produces a match exactly when the current
value is a non-array object and the key is either an own key or an
`Object.prototype` key (the JavaScript `in` operator sees inherited keys);
for an own key the match's value is the value stored under that key, for an
inherited key it is the inherited native member. -/
theorem c3_amended_field_semantics (f : String) (m r : PMatch) :
    r ∈ evalStep (.field f) m ↔
      ∃ fs, m.value = .obj fs ∧
        ((∃ v, alookup fs f = some v ∧ r = ⟨v, m.path ++ [.fld f]⟩) ∨
         (alookup fs f = none ∧ f ∈ protoKeys ∧
          r = ⟨.native f, m.path ++ [.fld f]⟩)) := by
  cases hv : m.value <;> simp [evalStep, hv]
  case obj fs =>
    cases hl : alookup fs f with
    | some v => simp [hl]
    | none =>
      by_cases hproto : f ∈ protoKeys
      · simp [hl, hproto]
      · simp [hl, hproto]

/-- C2, behaviour of the code at the spec's own worked example: the document
`{id:1, items:[{id:10},{id:11}]}` with rules `(root, "$")` and
`(item, "$.items[*]")` yields the three entities but NO intra edges, where
the claim (and the spec's testable property) requires exactly two edges
root→item.  The parent lookup tests `pathKey.startsWith(existingPath + '.')`,
which no path key can satisfy when the registered parent path is the empty
string (the root match), so a root-level entity is never found as a parent;
the code's own comment says "take the longest (closest) match" but the
tie-break condition compares against `undefined` and always keeps the first
match instead. -/
theorem c2_code_eval :
    (extractFromCall "call-1"
      (.obj [("id", .num 1),
        ("items", .arr [.obj [("id", .num 10)], .obj [("id", .num 11)]])])
      [⟨"root", "$"⟩, ⟨"item", "$.items[*]"⟩]
      [("root", ⟨"root", "", "id", "", ""⟩),
       ("item", ⟨"item", "", "id", "", ""⟩)]).map
      (fun r => (r.1.map (fun e => e.id), r.2)) =
      .ok (["root-1", "item-10", "item-11"], []) := by decide

theorem parseLoopFuel_error_kinds (fuel : Nat) (cs : List Char) (e : ParseErr)
    (h : parseLoopFuel fuel cs = .error e) :
    e = .unclosedBracket ∨
    (∃ i, e = .badAccessor (String.mk i) ∧ i ≠ ['*'] ∧
      ¬(i ≠ [] ∧ i.all isDigitC)) ∨
    (∃ c r, e = .badChar (String.mk (c :: r)) ∧ c ≠ '[' ∧ ¬ isDigitC c ∧
      ¬ isFieldStart c ∧ c ≠ '.') := by
  induction fuel generalizing cs with
  | zero =>
    simp [parseLoopFuel] at h
    exact Or.inl h.symm
  | succ fuel ih =>
    cases cs with
    | nil => simp [parseLoopFuel] at h
    | cons c rest =>
      simp only [parseLoopFuel] at h
      by_cases hb : c = '['
      · rw [if_pos hb] at h
        cases hs : splitAtClose rest with
        | none =>
          rw [hs] at h
          cases h
          exact Or.inl rfl
        | some p =>
          obtain ⟨inside, after⟩ := p
          rw [hs] at h
          dsimp only at h
          by_cases hstar : inside = ['*']
          · rw [if_pos hstar] at h
            cases hr : parseLoopFuel fuel (dropDot after) with
            | error e' =>
              rw [hr] at h
              cases h
              exact ih _ hr
            | ok toks =>
              rw [hr] at h
              cases h
          · rw [if_neg hstar] at h
            by_cases hd : inside ≠ [] ∧ inside.all isDigitC
            · rw [if_pos hd] at h
              cases hr : parseLoopFuel fuel (dropDot after) with
              | error e' =>
                rw [hr] at h
                cases h
                exact ih _ hr
              | ok toks =>
                rw [hr] at h
                cases h
            · rw [if_neg hd] at h
              cases h
              exact Or.inr (Or.inl ⟨inside, rfl, hstar, hd⟩)
      · rw [if_neg hb] at h
        by_cases hdig : isDigitC c
        · rw [if_pos hdig] at h
          cases hr : parseLoopFuel fuel (dropDot (rest.dropWhile isDigitC)) with
          | error e' =>
            rw [hr] at h
            cases h
            exact ih _ hr
          | ok toks =>
            rw [hr] at h
            cases h
        · rw [if_neg hdig] at h
          by_cases hfs : isFieldStart c
          · rw [if_pos hfs] at h
            cases hr : parseLoopFuel fuel (dropDot (rest.dropWhile isFieldCont)) with
            | error e' =>
              rw [hr] at h
              cases h
              exact ih _ hr
            | ok toks =>
              rw [hr] at h
              cases h
          · rw [if_neg hfs] at h
            by_cases hdot : c = '.'
            · rw [if_pos hdot] at h
              exact ih _ h
            · rw [if_neg hdot] at h
              cases h
              exact Or.inr (Or.inr ⟨c, rest, rfl, hb, hdig, hfs, hdot⟩)

/-- C4: `compile("a[")` raises the unclosed-bracket error, `compile("a[x]")`
raises the malformed-accessor error; every error the parser can raise is one
of the three `PathSyntaxError` kinds, each tied to its condition (an
unclosed `[`, bracket content that is neither `*` nor a digit sequence, or a
leading character that starts no valid segment); and the parser never
partially succeeds: an error carries no tokens (`Except` returns either
tokens or an error) and a success always carries a nonempty token list. -/
theorem c4_parse_errors :
    parsePath "a[" = .error .unclosedBracket ∧
    parsePath "a[x]" = .error (.badAccessor "x") ∧
    (∀ s e, parsePath s = .error e →
      e = .unclosedBracket ∨
      (∃ i, e = .badAccessor (String.mk i) ∧ i ≠ ['*'] ∧
        ¬(i ≠ [] ∧ i.all isDigitC)) ∨
      (∃ c r, e = .badChar (String.mk (c :: r)) ∧ c ≠ '[' ∧ ¬ isDigitC c ∧
        ¬ isFieldStart c ∧ c ≠ '.')) ∧
    (∀ s ts, parsePath s = .ok ts → ts ≠ []) := by
  refine ⟨by decide, by decide, ?_, ?_⟩
  · intro s e h
    unfold parsePath at h
    split at h
    · cases h
    · dsimp only at h
      split at h
      · cases h
      · cases hr : parseLoop (if startsWithS (jsTrim s) "$"
            then dropDot ((jsTrim s).data.drop 1) else (jsTrim s).data) with
        | error e' =>
          rw [hr] at h
          cases h
          exact parseLoopFuel_error_kinds _ _ _ hr
        | ok toks =>
          rw [hr] at h
          cases h
  · intro s ts h
    unfold parsePath at h
    split at h
    · cases h
      simp
    · dsimp only at h
      split at h
      · cases h
        simp
      · cases hr : parseLoop (if startsWithS (jsTrim s) "$"
            then dropDot ((jsTrim s).data.drop 1) else (jsTrim s).data) with
        | error e' => rw [hr] at h; cases h
        | ok toks =>
          rw [hr] at h
          cases h
          repeat' split
          all_goals simp_all

/-- Witness for C4's quantified parts at a concrete input: `$` compiles to
the nonempty token list `[Root]`. -/
theorem c4_witness : ([Token.root] : List Token) ≠ [] :=
  c4_parse_errors.2.2.2 "$" [.root] (by decide)

/-- C8: for every object and every composite primary-key path (sub-paths
joined with `+`), a sub-path resolving to `undefined` or `null` voids the
whole key (the entity stays unkeyed), and otherwise the resolved key is the
stringified sub-path values joined with the fixed separator `|`. -/
theorem c8_composite_pk (obj : Json) (pkField : String)
    (hplus : '+' ∈ pkField.data) :
    ((∃ p ∈ splitOnS pkField '+',
        getNestedValue obj (jsTrim p) = none ∨
        getNestedValue obj (jsTrim p) = some .null) →
      resolvePkValue obj pkField = none) ∧
    (jsTruthy obj →
      (∀ p ∈ splitOnS pkField '+',
         getNestedValue obj (jsTrim p) ≠ none ∧
         getNestedValue obj (jsTrim p) ≠ some .null) →
      resolvePkValue obj pkField = some (.str (String.intercalate "|"
        (((splitOnS pkField '+').map (fun p => getNestedValue obj (jsTrim p))).map
          (fun v => jsString (v.getD .null)))))) := by
  have hne : pkField ≠ "" := by
    intro hcon
    rw [hcon] at hplus
    simp at hplus
  have hcont : pkField.data.contains '+' = true := by
    simpa [List.contains] using List.elem_eq_true_of_mem hplus
  constructor
  · intro hex
    unfold resolvePkValue
    by_cases ht : jsTruthy obj
    · rw [if_neg (by simp [ht, hne])]
      rw [if_neg (by simp [hplus])]
      have : ((splitOnS pkField '+').map
          (fun p => getNestedValue obj (jsTrim p))).any
          (fun v => decide (v = none ∨ v = some .null)) = true := by
        obtain ⟨p, hp, hv⟩ := hex
        refine List.any_eq_true.mpr ⟨getNestedValue obj (jsTrim p), ?_, ?_⟩
        · exact List.mem_map.mpr ⟨p, hp, rfl⟩
        · simpa using hv
      simp only [this]
      simp
    · rw [if_pos (by simp [ht])]
  · intro ht hall
    unfold resolvePkValue
    rw [if_neg (by simp [ht, hne])]
    rw [if_neg (by simp [hplus])]
    have : ((splitOnS pkField '+').map
        (fun p => getNestedValue obj (jsTrim p))).any
        (fun v => decide (v = none ∨ v = some .null)) = false := by
      refine List.any_eq_false.mpr ?_
      intro v hv
      obtain ⟨p, hp, rfl⟩ := List.mem_map.mp hv
      have := hall p hp
      simp [this.1, this.2]
    simp only [this]
    simp

/-- Witness for C8 at concrete inputs: `type+date` on
`{type:"order", date:"2024-01-15"}` resolves to `"order|2024-01-15"`, and on
`{type:"order"}` (missing `date`) the key is voided. -/
theorem c8_witness :
    resolvePkValue (.obj [("type", .str "order"), ("date", .str "2024-01-15")])
      "type+date" = some (.str "order|2024-01-15") ∧
    resolvePkValue (.obj [("type", .str "order")]) "type+date" = none := by
  constructor
  · have := (c8_composite_pk
      (.obj [("type", .str "order"), ("date", .str "2024-01-15")])
      "type+date" (by decide)).2 (by decide) (by decide)
    exact this.trans (by decide)
  · exact (c8_composite_pk (.obj [("type", .str "order")]) "type+date"
      (by decide)).1 ⟨"date", by decide, by decide⟩

/-- C7 counterexample: entity ids may contain `-`, so the edge-id string
`inter-<sourceId>-<targetId>` can coincide for two distinct (source, target)
pairs; the deduplication is by that string, and the second matching pair
then produces no edge, refuting the claim's "emits an edge exactly when the
stringified foreign key matches".  Here the pair (a-1, b-2-c) from the first
relation and the pair (a-1-b, 2-c) from the second both have the edge id
`inter-a-1-b-2-c`; both foreign keys match their index, yet the result holds
a single edge and no edge from `a-1-b` to `2-c` exists. -/
theorem c7_counterexample :
    calculateInterEdges
      [⟨"a-1", "a", .num 1, .obj [], "", "", "c", ""⟩,
       ⟨"b-2-c", "b", .str "2-c", .obj [("fk", .num 1)], "", "", "c", ""⟩,
       ⟨"a-1-b", "a-1", .str "b", .obj [], "", "", "c", ""⟩,
       ⟨"2-c", "2", .str "c", .obj [("fk", .str "b")], "", "", "c", ""⟩]
      [⟨"a", "b", "fk", ""⟩, ⟨"a-1", "2", "fk", ""⟩] [] =
      .ok [⟨"inter-a-1-b-2-c", "a-1", "b-2-c", "inter"⟩] ∧
    evaluatePathSingleS (.obj [("fk", .str "b")]) "fk" = .ok (some (.str "b")) ∧
    alookup (buildEntityIndex
      [⟨"a-1", "a", .num 1, .obj [], "", "", "c", ""⟩,
       ⟨"b-2-c", "b", .str "2-c", .obj [("fk", .num 1)], "", "", "c", ""⟩,
       ⟨"a-1-b", "a-1", .str "b", .obj [], "", "", "c", ""⟩,
       ⟨"2-c", "2", .str "c", .obj [("fk", .str "b")], "", "", "c", ""⟩])
      "a-1" = some [("b", "a-1-b")] ∧
    (calculateInterEdges
      [⟨"a-1", "a", .num 1, .obj [], "", "", "c", ""⟩,
       ⟨"b-2-c", "b", .str "2-c", .obj [("fk", .num 1)], "", "", "c", ""⟩,
       ⟨"a-1-b", "a-1", .str "b", .obj [], "", "", "c", ""⟩,
       ⟨"2-c", "2", .str "c", .obj [("fk", .str "b")], "", "", "c", ""⟩]
      [⟨"a", "b", "fk", ""⟩, ⟨"a-1", "2", "fk", ""⟩] []).map
      (fun es => es.filter
        (fun e => e.source == "a-1-b" && e.target == "2-c")) = .ok [] := by
  refine ⟨by decide, by decide, by decide, by decide⟩

theorem except_bind_ok {e a b : Type} (x : a) (f : a → Except e b) :
    (Except.ok x >>= f) = f x := rfl

theorem except_bind_err {e a b : Type} (er : e) (f : a → Except e b) :
    ((Except.error er : Except e a) >>= f) = .error er := rfl

theorem interToStep_inv {entities : List EEntity} {relations : List Relation}
    {rel : Relation} {m : List (String × String)} {toE : EEntity}
    {st st' : EdgeState}
    (hm : alookup (buildEntityIndex entities) rel.fromType = some m)
    (hrel : rel ∈ relations) (hfk : rel.toFk ≠ "")
    (htoE : toE ∈ entities) (hty : toE.type = rel.toType)
    (hstep : interToStep m rel st toE = .ok st')
    (hinv : EdgeInv entities relations st) :
    EdgeInv entities relations st' ∧ (∃ suf, st'.1 = st.1 ++ suf) ∧
    (∀ fkv srcId, evaluatePathSingleS toE.data rel.toFk = .ok (some fkv) →
       fkv ≠ .null → alookup m (jsString fkv) = some srcId →
       ∃ e ∈ st'.1, e.id = "inter-" ++ srcId ++ "-" ++ toE.id) := by
  unfold interToStep at hstep
  cases heval : evaluatePathSingleS toE.data rel.toFk with
  | error e =>
    rw [heval] at hstep
    cases hstep
  | ok fk =>
    rw [heval] at hstep
    cases fk with
    | none =>
      dsimp only at hstep
      cases hstep
      refine ⟨hinv, ⟨[], by simp⟩, ?_⟩
      intro fkv srcId he
      simp at he
    | some v =>
      dsimp only at hstep
      by_cases hnull : v = .null
      · rw [if_pos hnull] at hstep
        cases hstep
        refine ⟨hinv, ⟨[], by simp⟩, ?_⟩
        intro fkv srcId he hne
        simp at he
        subst he
        exact absurd hnull hne
      · rw [if_neg hnull] at hstep
        cases hlook : alookup m (jsString v) with
        | none =>
          rw [hlook] at hstep
          cases hstep
          refine ⟨hinv, ⟨[], by simp⟩, ?_⟩
          intro fkv srcId he hne hl
          simp at he
          subst he
          rw [hlook] at hl
          cases hl
        | some fromId =>
          rw [hlook] at hstep
          dsimp only at hstep
          by_cases hmem : ("inter-" ++ fromId ++ "-" ++ toE.id) ∈ st.2
          · rw [if_pos hmem] at hstep
            cases hstep
            refine ⟨hinv, ⟨[], by simp⟩, ?_⟩
            intro fkv srcId he hne hl
            simp at he
            subst he
            rw [hlook] at hl
            cases hl
            rw [hinv.1] at hmem
            obtain ⟨e, hemem, heid⟩ := List.mem_map.mp hmem
            exact ⟨e, hemem, heid⟩
          · rw [if_neg hmem] at hstep
            cases hstep
            obtain ⟨hset, hnodup, hsound⟩ := hinv
            refine ⟨⟨?_, ?_, ?_⟩, ⟨_, rfl⟩, ?_⟩
            · simp [hset]
            · rw [hset] at hmem
              simp [List.nodup_append, hnodup]
              intro e hemem heid
              exact hmem (heid ▸ List.mem_map_of_mem (fun e => e.id) hemem)
            · intro e hemem
              rcases List.mem_append.mp hemem with hold | hnew
              · exact hsound e hold
              · simp at hnew
                refine ⟨rel, toE, ?_, by simp [hnew], by simp [hnew],
                  by simp [hnew]⟩
                rw [hnew]
                exact ⟨hrel, hfk, htoE, hty, m, v, hm, heval, hnull, hlook⟩
            · intro fkv srcId he hne hl
              simp at he
              subst he
              rw [hlook] at hl
              cases hl
              exact ⟨⟨"inter-" ++ fromId ++ "-" ++ toE.id, fromId, toE.id,
                "inter"⟩, by simp, rfl⟩

theorem interToStep_fold {entities : List EEntity}
    {relations : List Relation} {rel : Relation} {m : List (String × String)}
    (hm : alookup (buildEntityIndex entities) rel.fromType = some m)
    (hrel : rel ∈ relations) (hfk : rel.toFk ≠ "") :
    ∀ (ts : List EEntity) (st st' : EdgeState),
      (∀ t ∈ ts, t ∈ entities ∧ t.type = rel.toType) →
      List.foldlM (interToStep m rel) st ts = .ok st' →
      EdgeInv entities relations st →
      EdgeInv entities relations st' ∧ (∃ suf, st'.1 = st.1 ++ suf) ∧
      (∀ toE ∈ ts, ∀ fkv srcId,
        evaluatePathSingleS toE.data rel.toFk = .ok (some fkv) → fkv ≠ .null →
        alookup m (jsString fkv) = some srcId →
        ∃ e ∈ st'.1, e.id = "inter-" ++ srcId ++ "-" ++ toE.id) := by
  intro ts
  induction ts with
  | nil =>
    intro st st' _ hfold hinv
    simp [List.foldlM] at hfold
    cases hfold
    exact ⟨hinv, ⟨[], by simp⟩, by simp⟩
  | cons t ts ih =>
    intro st st' hts hfold hinv
    rw [List.foldlM_cons] at hfold
    cases hstep : interToStep m rel st t with
    | error e =>
      rw [hstep, except_bind_err] at hfold
      cases hfold
    | ok st1 =>
      rw [hstep, except_bind_ok] at hfold
      have hstep1 := interToStep_inv hm hrel hfk (hts t (by simp)).1
        (hts t (by simp)).2 hstep hinv
      have hrest := ih st1 st' (fun t ht => hts t (by simp [ht])) hfold
        hstep1.1
      refine ⟨hrest.1, ?_, ?_⟩
      · obtain ⟨s1, h1⟩ := hstep1.2.1
        obtain ⟨s2, h2⟩ := hrest.2.1
        exact ⟨s1 ++ s2, by rw [h2, h1, List.append_assoc]⟩
      · intro toE htoE fkv srcId he hne hl
        rcases List.mem_cons.mp htoE with rfl | htl
        · obtain ⟨e, hemem, heid⟩ := hstep1.2.2 fkv srcId he hne hl
          obtain ⟨s2, h2⟩ := hrest.2.1
          exact ⟨e, by rw [h2]; exact List.mem_append_left _ hemem, heid⟩
        · exact hrest.2.2 toE htl fkv srcId he hne hl

theorem interRelStep_fold {entities : List EEntity}
    {relations : List Relation} :
    ∀ (rs : List Relation) (st st' : EdgeState),
      (∀ r ∈ rs, r ∈ relations) →
      List.foldlM (interRelStep entities (buildEntityIndex entities)) st rs =
        .ok st' →
      EdgeInv entities relations st →
      EdgeInv entities relations st' ∧ (∃ suf, st'.1 = st.1 ++ suf) ∧
      (∀ rel ∈ rs, ∀ toE srcId,
        rel.toFk ≠ "" → toE ∈ entities → toE.type = rel.toType →
        (∃ m fkv, alookup (buildEntityIndex entities) rel.fromType = some m ∧
          evaluatePathSingleS toE.data rel.toFk = .ok (some fkv) ∧
          fkv ≠ .null ∧ alookup m (jsString fkv) = some srcId) →
        ∃ e ∈ st'.1, e.id = "inter-" ++ srcId ++ "-" ++ toE.id) := by
  intro rs
  induction rs with
  | nil =>
    intro st st' _ hfold hinv
    simp [List.foldlM] at hfold
    cases hfold
    exact ⟨hinv, ⟨[], by simp⟩, by simp⟩
  | cons r rs ih =>
    intro st st' hrs hfold hinv
    rw [List.foldlM_cons] at hfold
    cases hstep : interRelStep entities (buildEntityIndex entities) st r with
    | error e =>
      rw [hstep, except_bind_err] at hfold
      cases hfold
    | ok st1 =>
      rw [hstep, except_bind_ok] at hfold
      have hr : r ∈ relations := hrs r (by simp)
      have hone : EdgeInv entities relations st1 ∧
          (∃ suf, st1.1 = st.1 ++ suf) ∧
          (∀ toE srcId, r.toFk ≠ "" → toE ∈ entities → toE.type = r.toType →
            (∃ m fkv,
              alookup (buildEntityIndex entities) r.fromType = some m ∧
              evaluatePathSingleS toE.data r.toFk = .ok (some fkv) ∧
              fkv ≠ .null ∧ alookup m (jsString fkv) = some srcId) →
            ∃ e ∈ st1.1, e.id = "inter-" ++ srcId ++ "-" ++ toE.id) := by
        unfold interRelStep at hstep
        by_cases hempty : r.toFk = ""
        · rw [if_pos hempty] at hstep
          cases hstep
          exact ⟨hinv, ⟨[], by simp⟩,
            fun toE srcId hne => absurd hempty hne⟩
        · rw [if_neg hempty] at hstep
          cases hix : alookup (buildEntityIndex entities) r.fromType with
          | none =>
            rw [hix] at hstep
            cases hstep
            refine ⟨hinv, ⟨[], by simp⟩, ?_⟩
            rintro toE srcId _ _ _ ⟨mm, fkv, hmm, _⟩
            cases hmm
          | some m =>
            rw [hix] at hstep
            dsimp only at hstep
            by_cases hemp :
                (entities.filter (fun e => e.type == r.toType)).isEmpty
            · rw [if_pos hemp] at hstep
              cases hstep
              refine ⟨hinv, ⟨[], by simp⟩, ?_⟩
              intro toE srcId _ htoE hty _
              have hmemf : toE ∈ entities.filter (fun e => e.type == r.toType) :=
                List.mem_filter.mpr ⟨htoE, by simp [hty]⟩
              rw [List.isEmpty_iff] at hemp
              rw [hemp] at hmemf
              cases hmemf
            · rw [if_neg hemp] at hstep
              have hfold1 := interToStep_fold hix hr hempty
                (entities.filter (fun e => e.type == r.toType)) st st1
                (fun t ht => by
                  have hmf := List.mem_filter.mp ht
                  exact ⟨hmf.1, by simpa using hmf.2⟩)
                hstep hinv
              refine ⟨hfold1.1, hfold1.2.1, ?_⟩
              rintro toE srcId _ htoE hty ⟨m', fkv, hm', heval, hne, hl⟩
              cases hm'
              exact hfold1.2.2 toE
                (List.mem_filter.mpr ⟨htoE, by simp [hty]⟩) fkv srcId heval
                hne hl
      have hrest := ih st1 st' (fun x hx => hrs x (by simp [hx])) hfold
        hone.1
      refine ⟨hrest.1, ?_, ?_⟩
      · obtain ⟨s1, h1⟩ := hone.2.1
        obtain ⟨s2, h2⟩ := hrest.2.1
        exact ⟨s1 ++ s2, by rw [h2, h1, List.append_assoc]⟩
      · intro rel hmem toE srcId hne htoE hty hhit
        rcases List.mem_cons.mp hmem with rfl | htl
        · obtain ⟨e, hemem, heid⟩ := hone.2.2 toE srcId hne htoE hty hhit
          obtain ⟨s2, h2⟩ := hrest.2.1
          exact ⟨e, by rw [h2]; exact List.mem_append_left _ hemem, heid⟩
        · exact hrest.2.2 rel htl toE srcId hne htoE hty hhit

/-- C7 amended: an edge is emitted for a foreign-key hit exactly up to
collision of the edge-id string `inter-<sourceId>-<targetId>` (entity ids
may contain `-`, so distinct (source, target) pairs can share an id and the
later one is dropped): every returned edge is justified by a hit, a missing
foreign-key value or an index miss produces no edge and no error, the
returned edge-id strings are duplicate-free (so in particular at most one
edge per (source, target) pair), and every hit is represented by some
returned edge bearing its edge-id string. -/
theorem c7_amended_inter_edges (entities : List EEntity)
    (relations : List Relation) (cfgMap : List (String × EntityConfig))
    (edges : List GEdge)
    (h : calculateInterEdges entities relations cfgMap = .ok edges) :
    (∀ e ∈ edges, ∃ rel toE, FkHit entities relations rel toE e.source ∧
       e.target = toE.id ∧ e.id = "inter-" ++ e.source ++ "-" ++ toE.id ∧
       e.edgeType = "inter") ∧
    (edges.map (fun e => e.id)).Nodup ∧
    (∀ rel toE srcId, FkHit entities relations rel toE srcId →
       ∃ e ∈ edges, e.id = "inter-" ++ srcId ++ "-" ++ toE.id) := by
  unfold calculateInterEdges at h
  dsimp only at h
  cases hfold : List.foldlM
      (interRelStep entities (buildEntityIndex entities)) ([], [])
      relations with
  | error e =>
    rw [hfold, except_bind_err] at h
    cases h
  | ok st =>
    rw [hfold, except_bind_ok] at h
    cases h
    have hmain := @interRelStep_fold entities relations relations
      ([], []) st (fun r hr => hr) hfold ⟨rfl, by simp, by simp⟩
    refine ⟨hmain.1.2.2, hmain.1.2.1, ?_⟩
    intro rel toE srcId hhit
    obtain ⟨hrel, hne, htoE, hty, m, fkv, hm, heval, hnull, hl⟩ := hhit
    exact hmain.2.2 rel hrel toE srcId hne htoE hty
      ⟨m, fkv, hm, heval, hnull, hl⟩

/-- Witness for C7's amended theorem at a concrete input: one client and one
invoice whose foreign key matches produce exactly the edge
`inter-client-1-invoice-9`, and the amended theorem applied there yields an
edge bearing that id. -/
theorem c7_witness :
    ∃ e ∈ [GEdge.mk "inter-client-1-invoice-9" "client-1" "invoice-9" "inter"],
      e.id = "inter-" ++ "client-1" ++ "-" ++ "invoice-9" :=
  (c7_amended_inter_edges
    [⟨"client-1", "client", .num 1, .obj [], "", "", "c", ""⟩,
     ⟨"invoice-9", "invoice", .num 9, .obj [("client_id", .num 1)], "", "",
       "c", ""⟩]
    [⟨"client", "invoice", "client_id", ""⟩] []
    [⟨"inter-client-1-invoice-9", "client-1", "invoice-9", "inter"⟩]
    (by decide)).2.2
    ⟨"client", "invoice", "client_id", ""⟩
    ⟨"invoice-9", "invoice", .num 9, .obj [("client_id", .num 1)], "", "",
      "c", ""⟩
    "client-1"
    ⟨by decide, by decide, by decide, by decide,
     [("1", "client-1")], .num 1, by decide, by decide, by decide, by decide⟩



theorem mem_jsSet {α : Type} {m : List (String × α)} {k k' : String}
    {v v' : α} (h : (k', v') ∈ jsSet m k v) :
    (k', v') ∈ m ∨ (k' = k ∧ v' = v) := by
  induction m with
  | nil =>
    simp [jsSet] at h
    exact Or.inr h
  | cons p m ih =>
    obtain ⟨pk, pv⟩ := p
    by_cases hk : pk = k
    · simp [jsSet, hk] at h
      rcases h with ⟨rfl, rfl⟩ | hmem
      · exact Or.inr ⟨rfl, rfl⟩
      · exact Or.inl (List.mem_cons_of_mem _ hmem)
    · simp [jsSet, hk] at h
      rcases h with ⟨rfl, rfl⟩ | hmem
      · exact Or.inl (by simp)
      · rcases ih hmem with hm | hnew
        · exact Or.inl (List.mem_cons_of_mem _ hm)
        · exact Or.inr hnew

theorem alookup_mem {α : Type} {m : List (String × α)} {k : String} {v : α}
    (h : alookup m k = some v) : (k, v) ∈ m := by
  induction m with
  | nil => simp [alookup] at h
  | cons p m ih =>
    obtain ⟨pk, pv⟩ := p
    by_cases hk : pk = k
    · simp [alookup, hk] at h
      simp [hk, h]
    · simp [alookup, hk] at h
      exact List.mem_cons_of_mem _ (ih h)

theorem mem_jsPush {α : Type} {m : List (String × List α)} {k k' : String}
    {g : List α} {x y : α} (h : (k', g) ∈ jsPush m k x) (hy : y ∈ g) :
    (∃ g', (k', g') ∈ m ∧ y ∈ g') ∨ y = x := by
  unfold jsPush at h
  cases hl : alookup m k with
  | some xs =>
    rw [hl] at h
    rcases mem_jsSet h with hm | ⟨rfl, rfl⟩
    · exact Or.inl ⟨g, hm, hy⟩
    · rcases List.mem_append.mp hy with hxs | hx
      · exact Or.inl ⟨xs, alookup_mem hl, hxs⟩
      · simp at hx
        exact Or.inr hx
  | none =>
    rw [hl] at h
    rcases List.mem_append.mp h with hm | hnew
    · exact Or.inl ⟨g, hm, hy⟩
    · simp at hnew
      rw [hnew.2] at hy
      simp at hy
      exact Or.inr hy

theorem foldl_inv_mem {α σ : Type} (l : List α) (f : σ → α → σ)
    (P : σ → Prop) (hf : ∀ s x, x ∈ l → P s → P (f s x)) :
    ∀ s, P s → P (l.foldl f s) := by
  induction l with
  | nil => intro s hs; simpa using hs
  | cons x xs ih =>
    intro s hs
    rw [List.foldl_cons]
    exact ih (fun s y hy => hf s y (by simp [hy])) _ (hf s x (by simp) hs)

theorem foldlM_except_inv {α σ ε : Type} (l : List α)
    (f : σ → α → Except ε σ) (P : σ → Prop)
    (hf : ∀ s x s', x ∈ l → P s → f s x = .ok s' → P s') :
    ∀ s s', P s → List.foldlM f s l = .ok s' → P s' := by
  induction l with
  | nil =>
    intro s s' hs hfold
    simp [List.foldlM] at hfold
    cases hfold
    exact hs
  | cons x xs ih =>
    intro s s' hs hfold
    rw [List.foldlM_cons] at hfold
    cases hstep : f s x with
    | error e =>
      rw [hstep, except_bind_err] at hfold
      cases hfold
    | ok s1 =>
      rw [hstep, except_bind_ok] at hfold
      exact ih (fun s y s' hy => hf s y s' (by simp [hy])) s1 s'
        (hf s x s1 (by simp) hs hstep) hfold

theorem snd_mem_of_mem_enum {α : Type} {l : List α} {p : Nat × α}
    (h : p ∈ l.enum) : p.2 ∈ l := by
  have := List.mem_enum_iff_get?.mp h
  exact List.get?_mem this



theorem processResult_inv {call : Call} {ext : Extraction}
    {cfg : EntityConfig} {st : FirstPassState} {res : PMatch}
    (h : KeyedGroups st ∧ AllPlain st.mappings) :
    KeyedGroups (processResult call ext cfg st res) ∧
      AllPlain (processResult call ext cfg st res).mappings := by
  obtain ⟨hk, hp⟩ := h
  unfold processResult
  cases hv : res.value with
  | arr xs =>
    dsimp only
    constructor
    · intro gk g hg item hitem
      exact hk gk g hg item hitem
    · intro nid mp hmem
      rcases mem_jsSet hmem with hold | ⟨_, rfl⟩
      · exact hp nid mp hold
      · exact ⟨_, _, _, _, rfl⟩
  | obj fs =>
    dsimp only
    cases hres : resolvePkValue (.obj fs) (defaultStr cfg.pk "id") with
    | some pkv =>
      dsimp only
      by_cases hnull : pkv = Json.null
      · rw [if_pos hnull]
        constructor
        · intro gk g hg item hitem
          exact hk gk g hg item hitem
        · intro nid mp hmem
          rcases mem_jsSet hmem with hold | ⟨_, rfl⟩
          · exact hp nid mp hold
          · exact ⟨_, _, _, _, rfl⟩
      · rw [if_neg hnull]
        constructor
        · intro gk g hg item hitem
          rcases mem_jsPush hg hitem with ⟨g', hg', hitem'⟩ | rfl
          · exact hk gk g' hg' item hitem'
          · exact ⟨pkv, hres, hnull⟩
        · intro nid mp hmem
          exact hp nid mp hmem
    | none =>
      dsimp only
      constructor
      · intro gk g hg item hitem
        exact hk gk g hg item hitem
      · intro nid mp hmem
        rcases mem_jsSet hmem with hold | ⟨_, rfl⟩
        · exact hp nid mp hold
        · exact ⟨_, _, _, _, rfl⟩
  | null =>
    exact ⟨hk, hp⟩
  | bool b =>
    exact ⟨hk, hp⟩
  | num n =>
    exact ⟨hk, hp⟩
  | str s =>
    exact ⟨hk, hp⟩
  | native nm =>
    exact ⟨hk, hp⟩



theorem computeFirstPass_inv {calls : List Call}
    {entityMap : List (String × EntityConfig)} {fp : FirstPassState}
    (h : computeFirstPass calls entityMap = .ok fp) :
    KeyedGroups fp ∧ AllPlain fp.mappings := by
  unfold computeFirstPass at h
  refine foldlM_except_inv calls _
    (fun st => KeyedGroups st ∧ AllPlain st.mappings) ?_ ⟨[], []⟩ fp
    ⟨?_, ?_⟩ h
  · intro st call st' _ hst hstep
    cases hj : call.parsedJson with
    | none =>
      rw [hj] at hstep
      cases hstep
      exact hst
    | some j =>
      rw [hj] at hstep
      dsimp only at hstep
      by_cases ht : (!jsTruthy j) = true
      · rw [if_pos ht] at hstep
        cases hstep
        exact hst
      · rw [if_neg ht] at hstep
        refine foldlM_except_inv call.extractions _
          (fun st => KeyedGroups st ∧ AllPlain st.mappings) ?_ st st' hst
          hstep
        intro st ext st' _ hst hstep
        by_cases hblank : ext.entity = "" ∨ ext.path = ""
        · rw [if_pos hblank] at hstep
          cases hstep
          exact hst
        · rw [if_neg hblank] at hstep
          cases hcfg : alookup entityMap ext.entity with
          | none =>
            rw [hcfg] at hstep
            cases hstep
            exact hst
          | some cfg =>
            rw [hcfg] at hstep
            dsimp only at hstep
            cases hev : evaluatePathS j ext.path with
            | error e =>
              rw [hev, except_bind_err] at hstep
              cases hstep
            | ok results =>
              rw [hev, except_bind_ok] at hstep
              cases hstep
              exact foldl_inv_mem results (processResult call ext cfg)
                (fun st => KeyedGroups st ∧ AllPlain st.mappings)
                (fun s x _ hs => processResult_inv hs) st hst
  · intro gk g hg
    simp at hg
  · intro nid mp hmem
    simp at hmem



theorem mem_groupSourceInfos {calls : List Call} {grp : List GroupItem}
    {x : SourceInfo × GroupItem} (h : x ∈ groupSourceInfos calls grp) :
    x.2 ∈ grp := by
  unfold groupSourceInfos at h
  obtain ⟨q, hq, rfl⟩ := List.mem_map.mp h
  exact snd_mem_of_mem_enum hq

theorem computeSecondPass_inv {calls : List Call} {fp : FirstPassState}
    (hfp : AllPlain fp.mappings) :
    (∀ pr ∈ (computeSecondPass calls fp).mergedNodes, FromGroups fp pr) ∧
    (∀ nid mp, (nid, mp) ∈ (computeSecondPass calls fp).mappings →
      SourcesFromGroups fp mp) := by
  unfold computeSecondPass
  dsimp only
  refine foldl_inv_mem fp.groups _
    (fun st : List (String × Mapping) × List (String × String) =>
      (∀ pr ∈ st.2, FromGroups fp pr) ∧
      (∀ nid mp, (nid, mp) ∈ st.1 → SourcesFromGroups fp mp))
    ?_ (fp.mappings, []) ⟨by simp, ?_⟩
  · intro st g hg hst
    cases hsplit : g.2 with
    | nil =>
      dsimp only [hsplit]
      exact hst
    | cons canonical tail =>
      dsimp only [hsplit]
      constructor
      · intro pr hpr
        have hfold := foldl_inv_mem
          ((groupSourceInfos calls (canonical :: tail)).drop 1)
          (fun mn p => jsSet mn p.2.nodeId canonical.nodeId)
          (fun mn => ∀ pr ∈ mn, FromGroups fp pr) ?_ st.2 hst.1
        · exact hfold pr hpr
        · intro mn p hp hmn pr' hpr'
          rcases mem_jsSet hpr' with hold | ⟨h1, h2⟩
          · exact hmn pr' hold
          · show FromGroups fp pr'
            unfold FromGroups
            refine ⟨g.1, g.2, by simpa using hg,
              ⟨p.2, ?_, h1.symm⟩, ⟨canonical, ?_, h2.symm⟩⟩
            · rw [hsplit]
              exact mem_groupSourceInfos (List.mem_of_mem_drop hp)
            · rw [hsplit]
              rfl
      · intro nid mp hmem
        rcases mem_jsSet hmem with hold | ⟨h1, h2⟩
        · exact hst.2 nid mp hold
        · intro et el c d srcs ps cf n hc heq
          rw [h2] at heq
          cases heq
          intro s hs
          obtain ⟨p, hp, rfl⟩ := List.mem_map.mp hs
          show ∃ gk g2 item, (gk, g2) ∈ fp.groups ∧ item ∈ g2 ∧
            (SourceEntry.mk p.1.callId p.1.callName p.2.nodeId p.2.data).nodeId
              = item.nodeId ∧
            (SourceEntry.mk p.1.callId p.1.callName p.2.nodeId p.2.data).data
              = item.data
          refine ⟨g.1, g.2, p.2, by simpa using hg, ?_, rfl, rfl⟩
          rw [hsplit]
          exact mem_groupSourceInfos hp
  · intro nid mp hmem
    intro et el c d srcs ps cf n hc heq
    obtain ⟨et', el', c', d', hplain⟩ := hfp nid mp hmem
    rw [hplain] at heq
    cases heq

/-- C6: an extraction match whose resolved primary key is `undefined` or
`null` never enters a merge group.  Packaged as: every merge-group item has
a resolvable non-null primary key (`KeyedGroups`), the first pass writes
only plain standalone mappings (`AllPlain`), every duplicate redirection in
`mergedNodes` points from a group item to its group's first (canonical) item
(`FromGroups`), and every merged mapping's sources all come from group items
(`SourcesFromGroups`) — so an unkeyed match is never recorded as a duplicate
and never contributes properties, sources or conflicts to a MergedEntity; it
remains a standalone mapping. -/
theorem c6_unkeyed_never_merged (calls : List Call)
    (entityConfigs : List EntityConfig) (out : NodeMappings)
    (h : computeNodeMappings calls entityConfigs = .ok out) :
    ∃ fp, computeFirstPass calls (buildConfigMap entityConfigs) = .ok fp ∧
      out = computeSecondPass calls fp ∧
      KeyedGroups fp ∧ AllPlain fp.mappings ∧
      (∀ pr ∈ out.mergedNodes, FromGroups fp pr) ∧
      (∀ nid mp, (nid, mp) ∈ out.mappings → SourcesFromGroups fp mp) := by
  unfold computeNodeMappings at h
  cases hfp : computeFirstPass calls (buildConfigMap entityConfigs) with
  | error e =>
    rw [hfp, except_bind_err] at h
    cases h
  | ok fp =>
    rw [hfp, except_bind_ok] at h
    cases h
    have h1 := computeFirstPass_inv hfp
    have h2 := @computeSecondPass_inv calls fp h1.2
    exact ⟨fp, rfl, rfl, h1.1, h1.2, h2.1, h2.2⟩

/-- Witness for C6 at a concrete input: one document whose single match has
no resolvable primary key produces a standalone plain mapping and an empty
duplicate-redirection map. -/
theorem c6_witness :
    ∃ fp, computeFirstPass
        [⟨"call-N", "Doc N", some (.obj [("name", .str "X")]),
          [⟨"client", "$"⟩]⟩]
        (buildConfigMap [⟨"client", "Client", "missing", "name", ""⟩]) =
        .ok fp ∧
      NodeMappings.mk
        [("call-N:$", .plain "client" "X" "#4F46E5"
          (.obj [("name", .str "X")]))] [] =
        computeSecondPass
          [⟨"call-N", "Doc N", some (.obj [("name", .str "X")]),
            [⟨"client", "$"⟩]⟩] fp ∧
      KeyedGroups fp ∧ AllPlain fp.mappings ∧
      (∀ pr ∈ (NodeMappings.mk
          [("call-N:$", .plain "client" "X" "#4F46E5"
            (.obj [("name", .str "X")]))] []).mergedNodes, FromGroups fp pr) ∧
      (∀ nid mp, (nid, mp) ∈ (NodeMappings.mk
          [("call-N:$", .plain "client" "X" "#4F46E5"
            (.obj [("name", .str "X")]))] []).mappings →
        SourcesFromGroups fp mp) :=
  c6_unkeyed_never_merged
    [⟨"call-N", "Doc N", some (.obj [("name", .str "X")]), [⟨"client", "$"⟩]⟩]
    [⟨"client", "Client", "missing", "name", ""⟩]
    (NodeMappings.mk
      [("call-N:$", .plain "client" "X" "#4F46E5"
        (.obj [("name", .str "X")]))] [])
    (by decide)


/-- C1 counterexample: merging the instances `{a:{b:2}}` then `{a:5}` (same
merge group).  The flattened leaf occurrences are `a.b = 2` and `a = 5`, so
the path `a` is seen under exactly one value across all instances and the
claim requires no conflict entry at `a`; but the code's recursive merge
compares the leaf `5` against the nested object `{b:2}` stored under the
key `a` and records a conflict there — and the merged value at path `a.b`
(which the claim says equals 2, its only contribution) is gone entirely. -/
theorem c1_counterexample :
    (mergeFold [(⟨"c1", "Call 1", 0⟩, .obj [("a", .obj [("b", .num 2)])]),
                (⟨"c2", "Call 2", 1⟩, .obj [("a", .num 5)])]).2.1 =
      [("a", [⟨"c2", "Call 2", .obj [("b", .num 2)], .num 5, 1⟩])] ∧
    flattenEntries "" (jsEntries (.obj [("a", .obj [("b", .num 2)])])) =
      [("a.b", .num 2)] ∧
    flattenEntries "" (jsEntries (.obj [("a", .num 5)])) = [("a", .num 5)] ∧
    (mergeFold [(⟨"c1", "Call 1", 0⟩, .obj [("a", .obj [("b", .num 2)])]),
                (⟨"c2", "Call 2", 1⟩, .obj [("a", .num 5)])]).1 =
      [("a", .num 5)] := by
  refine ⟨by decide, by decide, by decide, by decide⟩


/-! ### Path algebra for dotted flattening -/

theorem strictExt_iff_data {p q : String} :
    strictExt p q ↔ ∃ r : List Char, q.data = p.data ++ '.' :: r := by
  constructor
  · rintro ⟨r, rfl⟩
    exact ⟨r.data, by simp [String.data_append]⟩
  · rintro ⟨r, hr⟩
    refine ⟨String.mk r, String.ext ?_⟩
    rw [hr]
    simp [String.data_append]

theorem strictExt_trans {a b c : String} (h1 : strictExt a b)
    (h2 : strictExt b c) : strictExt a c := by
  rw [strictExt_iff_data] at h1 h2 ⊢
  obtain ⟨r1, hr1⟩ := h1
  obtain ⟨r2, hr2⟩ := h2
  exact ⟨r1 ++ '.' :: r2, by rw [hr2, hr1]; simp⟩

theorem goodKey_spec {k : String} (h : goodKey k = true) :
    k.data ≠ [] ∧ '.' ∉ k.data := by
  unfold goodKey at h
  rw [Bool.and_eq_true] at h
  constructor
  · intro hnil
    have : k = "" := String.ext (by simpa using hnil)
    rw [this] at h
    simpa using h.1
  · intro hmem
    have h2 := h.2
    rw [Bool.not_eq_true'] at h2
    unfold List.contains at h2
    rw [List.elem_eq_true_of_mem hmem] at h2
    cases h2

theorem list_key_eq : ∀ (A B t t' : List Char), '.' ∉ A → '.' ∉ B →
    (t = [] ∨ ∃ r, t = '.' :: r) → (t' = [] ∨ ∃ r, t' = '.' :: r) →
    A ++ t = B ++ t' → A = B ∧ t = t' := by
  intro A
  induction A with
  | nil =>
    intro B t t' _ hB ht ht' h
    cases B with
    | nil =>
      simp at h
      exact ⟨rfl, h⟩
    | cons b B' =>
      simp at h
      rcases ht with rfl | ⟨r, rfl⟩
      · simp at h
      · injection h with hb hrest
        subst hb
        exact absurd (List.mem_cons_self _ _) hB
  | cons a A' ih =>
    intro B t t' hA hB ht ht' h
    cases B with
    | nil =>
      simp at h
      rcases ht' with rfl | ⟨r', rfl⟩
      · simp at h
      · injection h with hb hrest
        subst hb
        exact absurd (List.mem_cons_self _ _) hA
    | cons b B' =>
      simp at h
      obtain ⟨rfl, h2⟩ := h
      have hA' : '.' ∉ A' := fun hm => hA (by simp [hm])
      have hB' : '.' ∉ B' := fun hm => hB (by simp [hm])
      obtain ⟨he, htt⟩ := ih B' t t' hA' hB' ht ht' h2
      exact ⟨by rw [he], htt⟩

theorem region_data {path k q : String} (hq : inRegion (joinPath path k) q) :
    ∃ t, q.data = path.data ++
        ((if path = "" then [] else ['.']) ++ (k.data ++ t)) ∧
      (t = [] ∨ ∃ r, t = '.' :: r) := by
  rcases hq with rfl | hext
  · refine ⟨[], ?_, Or.inl rfl⟩
    by_cases hp : path = "" <;>
      simp [joinPath, hp, String.data_append]
  · rw [strictExt_iff_data] at hext
    obtain ⟨r, hr⟩ := hext
    refine ⟨'.' :: r, hr.trans ?_, Or.inr ⟨r, rfl⟩⟩
    by_cases hp : path = "" <;>
      simp [joinPath, hp, String.data_append]

/-- Paths in the subtree regions of two distinct good keys at the same
parent path are distinct and unrelated by strict extension. -/
theorem region_disjoint {path k k' q q' : String} (hk : goodKey k = true)
    (hk' : goodKey k' = true) (hne : k ≠ k')
    (hq : inRegion (joinPath path k) q) (hq' : inRegion (joinPath path k') q') :
    q ≠ q' ∧ ¬ strictExt q q' := by
  obtain ⟨hknil, hkdot⟩ := goodKey_spec hk
  obtain ⟨hknil', hkdot'⟩ := goodKey_spec hk'
  obtain ⟨t, hqd, htsh⟩ := region_data hq
  obtain ⟨t', hqd', htsh'⟩ := region_data hq'
  constructor
  · intro hcon
    have h2 : path.data ++ ((if path = "" then [] else ['.']) ++ (k.data ++ t)) =
        path.data ++ ((if path = "" then [] else ['.']) ++ (k'.data ++ t')) := by
      rw [← hqd, ← hqd', hcon]
    have h3 := List.append_cancel_left (List.append_cancel_left h2)
    have hkeys := list_key_eq k.data k'.data t t' hkdot hkdot' htsh htsh' h3
    exact hne (String.ext hkeys.1)
  · intro hcon
    rw [strictExt_iff_data] at hcon
    obtain ⟨s, hs⟩ := hcon
    have h2 : path.data ++ ((if path = "" then [] else ['.']) ++ (k'.data ++ t')) =
        path.data ++ ((if path = "" then [] else ['.']) ++ (k.data ++ (t ++ '.' :: s))) := by
      rw [← hqd', hs, hqd]
      simp [List.append_assoc]
    have h3 := List.append_cancel_left (List.append_cancel_left h2)
    have htsh2 : (t ++ '.' :: s) = [] ∨ ∃ r, t ++ '.' :: s = '.' :: r := by
      rcases htsh with rfl | ⟨r, rfl⟩
      · exact Or.inr ⟨s, rfl⟩
      · exact Or.inr ⟨r ++ '.' :: s, rfl⟩
    have hkeys := list_key_eq k'.data k.data t' (t ++ '.' :: s) hkdot'
      hkdot htsh' htsh2 h3
    exact hne (String.ext hkeys.1.symm)

/-- A good key's subtree region never contains the parent path itself nor
any path outside it: `joinPath path k` strictly extends `path` when `path`
is nonempty, and equals `k` otherwise. -/
theorem strictExt_joinPath {path k : String} (hk : goodKey k = true)
    (hpath : path ≠ "") : strictExt path (joinPath path k) := by
  unfold joinPath
  rw [if_neg hpath]
  exact ⟨k, rfl⟩

theorem joinPath_ne_empty {path k : String} (hk : goodKey k = true) :
    joinPath path k ≠ "" := by
  obtain ⟨hknil, _⟩ := goodKey_spec hk
  unfold joinPath
  split
  · intro hcon
    exact hknil (by simpa using congrArg String.data hcon)
  · intro hcon
    have := congrArg String.data hcon
    simp [String.data_append] at this

/-! ### Association-list lookup algebra -/

theorem alookup_append {α : Type} (xs ys : List (String × α)) (q : String) :
    alookup (xs ++ ys) q = (alookup xs q).or (alookup ys q) := by
  induction xs with
  | nil => simp [alookup]
  | cons p xs ih =>
    obtain ⟨k, v⟩ := p
    by_cases hk : k = q
    · simp [alookup, hk]
    · simp [alookup, hk, ih]

theorem alookup_jsSet {α : Type} (m : List (String × α)) (k : String) (v : α)
    (q : String) :
    alookup (jsSet m k v) q = if k = q then some v else alookup m q := by
  induction m with
  | nil =>
    by_cases hk : k = q <;> simp [jsSet, alookup, hk]
  | cons p m ih =>
    obtain ⟨k1, v1⟩ := p
    by_cases h1 : k1 = k
    · subst h1
      by_cases hq : k1 = q <;> simp [jsSet, alookup, hq]
    · by_cases hq : k1 = q
      · subst hq
        have hk2 : ¬ k = k1 := fun h => h1 h.symm
        simp [jsSet, h1, alookup, hk2]
      · simp [jsSet, h1, alookup, hq, ih]

theorem alookup_jsPush {α : Type} (m : List (String × List α)) (k : String)
    (x : α) (q : String) :
    alookup (jsPush m k x) q =
      if k = q then some (((alookup m k).getD []) ++ [x])
      else alookup m q := by
  unfold jsPush
  cases hl : alookup m k with
  | some xs =>
    rw [alookup_jsSet]
    by_cases hk : k = q <;> simp [hk]
  | none =>
    rw [alookup_append]
    by_cases hk : k = q
    · subst hk
      simp [hl, alookup]
    · simp [alookup, hk]

theorem alookup_eq_none {α : Type} {m : List (String × α)} {q : String}
    (h : q ∉ m.map Prod.fst) : alookup m q = none := by
  induction m with
  | nil => rfl
  | cons p m ih =>
    obtain ⟨k, v⟩ := p
    have hne : ¬ k = q := by
      intro hh
      exact h (by simp [hh])
    have h2 : q ∉ m.map Prod.fst := by
      intro hh
      exact h (by simp [hh])
    simp only [alookup]
    rw [if_neg hne, ih h2]

theorem mem_keys_of_alookup {α : Type} {m : List (String × α)} {q : String}
    {v : α} (h : alookup m q = some v) : q ∈ m.map Prod.fst := by
  have := alookup_mem h
  exact List.mem_map.mpr ⟨(q, v), this, rfl⟩

theorem contains_false_iff {l : List String} {a : String} :
    l.contains a = false ↔ a ∉ l := by
  constructor
  · intro h hmem
    unfold List.contains at h
    rw [List.elem_eq_true_of_mem hmem] at h
    cases h
  · intro h
    cases hc : l.contains a with
    | false => rfl
    | true =>
      unfold List.contains at hc
      exact absurd (List.mem_of_elem_eq_true hc) h

theorem wf_cons {k : String} {v : Json} {rest : List (String × Json)}
    (h : wfFields ((k, v) :: rest) = true) :
    goodKey k = true ∧ wfVal v = true ∧ k ∉ rest.map Prod.fst ∧
      wfFields rest = true := by
  unfold wfFields at h
  rw [Bool.and_eq_true, Bool.and_eq_true, Bool.and_eq_true] at h
  refine ⟨h.1.1.1, h.1.1.2, ?_, h.2⟩
  rw [← contains_false_iff]
  have := h.1.2
  rw [Bool.not_eq_true'] at this
  exact this

theorem strictExt_length {p q : String} (h : strictExt p q) :
    p.data.length < q.data.length := by
  rw [strictExt_iff_data] at h
  obtain ⟨r, hr⟩ := h
  rw [hr]
  simp

theorem strictExt_irrefl (p : String) : ¬ strictExt p p :=
  fun h => absurd (strictExt_length h) (lt_irrefl _)

theorem joinPath_ne_self {path k : String} (hk : goodKey k = true)
    (hpath : path ≠ "") : joinPath path k ≠ path := by
  intro hcon
  have := strictExt_length (strictExt_joinPath hk hpath)
  rw [hcon] at this
  exact absurd this (lt_irrefl _)

/-! ### Flattening structure lemmas -/

theorem flattenEntries_append (path : String) (xs ys : List (String × Json)) :
    flattenEntries path (xs ++ ys) =
      flattenEntries path xs ++ flattenEntries path ys := by
  induction xs with
  | nil => simp [flattenEntries]
  | cons p xs ih =>
    obtain ⟨k, v⟩ := p
    simp [flattenEntries, ih]

theorem objPathsEntries_append (path : String) (xs ys : List (String × Json)) :
    objPathsEntries path (xs ++ ys) =
      objPathsEntries path xs ++ objPathsEntries path ys := by
  induction xs with
  | nil => simp [objPathsEntries]
  | cons p xs ih =>
    obtain ⟨k, v⟩ := p
    simp [objPathsEntries, ih]

mutual

theorem flatten_region_entries : ∀ (path : String) (fs : List (String × Json))
    (q : String), wfFields fs = true →
    q ∈ (flattenEntries path fs).map Prod.fst →
    ∃ k v, (k, v) ∈ fs ∧ goodKey k = true ∧ inRegion (joinPath path k) q
  | path, [], q, _, h => by simp [flattenEntries] at h
  | path, (k, v) :: rest, q, hwf, h => by
      obtain ⟨hk, hv, hnd, hrest⟩ := wf_cons hwf
      rw [flattenEntries, List.map_append] at h
      rcases List.mem_append.mp h with hl | hr
      · exact ⟨k, v, by simp, hk,
          flatten_region_val (joinPath path k) v q (joinPath_ne_empty hk) hv hl⟩
      · obtain ⟨k2, v2, hm, hk2, hreg⟩ :=
          flatten_region_entries path rest q hrest hr
        exact ⟨k2, v2, List.mem_cons_of_mem _ hm, hk2, hreg⟩

theorem flatten_region_val : ∀ (p : String) (v : Json) (q : String),
    p ≠ "" → wfVal v = true → q ∈ (flattenVal p v).map Prod.fst →
    inRegion p q
  | p, .obj fs, q, hp, hv, h => by
      rw [flattenVal] at h
      obtain ⟨k, v', hm, hk, hreg⟩ := flatten_region_entries p fs q
        (by rw [wfVal] at hv; exact hv) h
      have hext : strictExt p (joinPath p k) := strictExt_joinPath hk hp
      rcases hreg with rfl | hext2
      · exact Or.inr hext
      · exact Or.inr (strictExt_trans hext hext2)
  | p, .null, q, _, _, h => by
      rw [show flattenVal p (.null) = [(p, .null)] from rfl] at h
      simp at h
      exact Or.inl h
  | p, .bool b, q, _, _, h => by
      rw [show flattenVal p (.bool b) = [(p, .bool b)] from rfl] at h
      simp at h
      exact Or.inl h
  | p, .num n, q, _, _, h => by
      rw [show flattenVal p (.num n) = [(p, .num n)] from rfl] at h
      simp at h
      exact Or.inl h
  | p, .str s, q, _, _, h => by
      rw [show flattenVal p (.str s) = [(p, .str s)] from rfl] at h
      simp at h
      exact Or.inl h
  | p, .arr xs, q, _, _, h => by
      rw [show flattenVal p (.arr xs) = [(p, .arr xs)] from rfl] at h
      simp at h
      exact Or.inl h
  | p, .native nm, q, _, _, h => by
      rw [show flattenVal p (.native nm) = [(p, .native nm)] from rfl] at h
      simp at h
      exact Or.inl h

end

mutual

theorem objPaths_region_entries : ∀ (path : String) (fs : List (String × Json))
    (q : String), wfFields fs = true → q ∈ objPathsEntries path fs →
    ∃ k v, (k, v) ∈ fs ∧ goodKey k = true ∧ inRegion (joinPath path k) q
  | path, [], q, _, h => by simp [objPathsEntries] at h
  | path, (k, v) :: rest, q, hwf, h => by
      obtain ⟨hk, hv, hnd, hrest⟩ := wf_cons hwf
      rw [objPathsEntries] at h
      rcases List.mem_append.mp h with hl | hr
      · exact ⟨k, v, by simp, hk,
          objPaths_region_val (joinPath path k) v q (joinPath_ne_empty hk) hv hl⟩
      · obtain ⟨k2, v2, hm, hk2, hreg⟩ :=
          objPaths_region_entries path rest q hrest hr
        exact ⟨k2, v2, List.mem_cons_of_mem _ hm, hk2, hreg⟩

theorem objPaths_region_val : ∀ (p : String) (v : Json) (q : String),
    p ≠ "" → wfVal v = true → q ∈ objPathsVal p v → inRegion p q
  | p, .obj fs, q, hp, hv, h => by
      rw [objPathsVal] at h
      rcases List.mem_cons.mp h with rfl | h2
      · exact Or.inl rfl
      · obtain ⟨k, v', hm, hk, hreg⟩ := objPaths_region_entries p fs q
          (by rw [wfVal] at hv; exact hv) h2
        have hext : strictExt p (joinPath p k) := strictExt_joinPath hk hp
        rcases hreg with rfl | hext2
        · exact Or.inr hext
        · exact Or.inr (strictExt_trans hext hext2)
  | p, .null, q, _, _, h => by
      rw [show objPathsVal p (.null) = [] from rfl] at h
      simp at h
  | p, .bool b, q, _, _, h => by
      rw [show objPathsVal p (.bool b) = [] from rfl] at h
      simp at h
  | p, .num n, q, _, _, h => by
      rw [show objPathsVal p (.num n) = [] from rfl] at h
      simp at h
  | p, .str s, q, _, _, h => by
      rw [show objPathsVal p (.str s) = [] from rfl] at h
      simp at h
  | p, .arr xs, q, _, _, h => by
      rw [show objPathsVal p (.arr xs) = [] from rfl] at h
      simp at h
  | p, .native nm, q, _, _, h => by
      rw [show objPathsVal p (.native nm) = [] from rfl] at h
      simp at h

end

theorem mem_flatten_of_mem {path k : String} {v : Json}
    {fs : List (String × Json)} {l : String × Json}
    (hm : (k, v) ∈ fs) (hl : l ∈ flattenVal (joinPath path k) v) :
    l ∈ flattenEntries path fs := by
  induction fs with
  | nil => cases hm
  | cons p rest ih =>
    obtain ⟨k1, v1⟩ := p
    rw [flattenEntries]
    rcases List.mem_cons.mp hm with heq | hm2
    · rw [Prod.mk.injEq] at heq
      obtain ⟨h1, h2⟩ := heq
      subst h1
      subst h2
      exact List.mem_append_left _ hl
    · exact List.mem_append_right _ (ih hm2)

theorem mem_objPaths_of_mem {path k : String} {v : Json}
    {fs : List (String × Json)} {q : String}
    (hm : (k, v) ∈ fs) (hq : q ∈ objPathsVal (joinPath path k) v) :
    q ∈ objPathsEntries path fs := by
  induction fs with
  | nil => cases hm
  | cons p rest ih =>
    obtain ⟨k1, v1⟩ := p
    rw [objPathsEntries]
    rcases List.mem_cons.mp hm with heq | hm2
    · rw [Prod.mk.injEq] at heq
      obtain ⟨h1, h2⟩ := heq
      subst h1
      subst h2
      exact List.mem_append_left _ hq
    · exact List.mem_append_right _ (ih hm2)

theorem mem_keys_jsSet {α : Type} {m : List (String × α)} {k q : String}
    {v : α} (h : q ∈ (jsSet m k v).map Prod.fst) :
    q ∈ m.map Prod.fst ∨ q = k := by
  induction m with
  | nil =>
    rw [jsSet, List.map_cons] at h
    rcases List.mem_cons.mp h with rfl | h2
    · exact Or.inr rfl
    · cases h2
  | cons p m ih =>
    obtain ⟨k1, v1⟩ := p
    by_cases h1 : k1 = k
    · subst h1
      rw [jsSet, if_pos rfl, List.map_cons] at h
      rcases List.mem_cons.mp h with rfl | h2
      · exact Or.inr rfl
      · exact Or.inl (by rw [List.map_cons]; exact List.mem_cons_of_mem _ h2)
    · rw [jsSet, if_neg h1, List.map_cons] at h
      rcases List.mem_cons.mp h with rfl | h2
      · exact Or.inl (by rw [List.map_cons]; exact List.mem_cons_self _ _)
      · rcases ih h2 with hm | rfl
        · exact Or.inl (by rw [List.map_cons]; exact List.mem_cons_of_mem _ hm)
        · exact Or.inr rfl

theorem mem_keys_flatten_jsSet {path k q : String} {w : Json}
    {fs : List (String × Json)}
    (h : q ∈ (flattenEntries path (jsSet fs k w)).map Prod.fst) :
    q ∈ (flattenVal (joinPath path k) w).map Prod.fst ∨
      q ∈ (flattenEntries path fs).map Prod.fst := by
  induction fs with
  | nil =>
    rw [jsSet, flattenEntries, flattenEntries, List.append_nil] at h
    exact Or.inl h
  | cons p rest ih =>
    obtain ⟨k1, v1⟩ := p
    by_cases h1 : k1 = k
    · subst h1
      rw [jsSet, if_pos rfl, flattenEntries, List.map_append] at h
      rcases List.mem_append.mp h with hl | hr
      · exact Or.inl hl
      · refine Or.inr ?_
        rw [flattenEntries, List.map_append]
        exact List.mem_append_right _ hr
    · rw [jsSet, if_neg h1, flattenEntries, List.map_append] at h
      rcases List.mem_append.mp h with hl | hr
      · refine Or.inr ?_
        rw [flattenEntries, List.map_append]
        exact List.mem_append_left _ hl
      · rcases ih hr with hw | hfs
        · exact Or.inl hw
        · refine Or.inr ?_
          rw [flattenEntries, List.map_append]
          exact List.mem_append_right _ hfs

theorem mem_objPaths_jsSet {path k q : String} {w : Json}
    {fs : List (String × Json)}
    (h : q ∈ objPathsEntries path (jsSet fs k w)) :
    q ∈ objPathsVal (joinPath path k) w ∨
      q ∈ objPathsEntries path fs := by
  induction fs with
  | nil =>
    rw [jsSet, objPathsEntries, objPathsEntries, List.append_nil] at h
    exact Or.inl h
  | cons p rest ih =>
    obtain ⟨k1, v1⟩ := p
    by_cases h1 : k1 = k
    · subst h1
      rw [jsSet, if_pos rfl, objPathsEntries] at h
      rcases List.mem_append.mp h with hl | hr
      · exact Or.inl hl
      · refine Or.inr ?_
        rw [objPathsEntries]
        exact List.mem_append_right _ hr
    · rw [jsSet, if_neg h1, objPathsEntries] at h
      rcases List.mem_append.mp h with hl | hr
      · refine Or.inr ?_
        rw [objPathsEntries]
        exact List.mem_append_left _ hl
      · rcases ih hr with hw | hfs
        · exact Or.inl hw
        · refine Or.inr ?_
          rw [objPathsEntries]
          exact List.mem_append_right _ hfs

theorem wfFields_jsSet {fs : List (String × Json)} {k : String} {w : Json}
    (hwf : wfFields fs = true) (hk : goodKey k = true)
    (hw : wfVal w = true) : wfFields (jsSet fs k w) = true := by
  induction fs with
  | nil =>
    rw [jsSet]
    simp [wfFields, hk, hw, List.contains, List.elem]
  | cons p rest ih =>
    obtain ⟨k1, v1⟩ := p
    obtain ⟨hk1, hv1, hnd, hrest⟩ := wf_cons hwf
    by_cases h1 : k1 = k
    · subst h1
      rw [jsSet, if_pos rfl]
      simp only [wfFields, Bool.and_eq_true, Bool.not_eq_true']
      exact ⟨⟨⟨hk1, hw⟩, contains_false_iff.mpr hnd⟩, hrest⟩
    · rw [jsSet, if_neg h1]
      simp only [wfFields, Bool.and_eq_true, Bool.not_eq_true']
      refine ⟨⟨⟨hk1, hv1⟩, ?_⟩, ih hrest⟩
      rw [contains_false_iff]
      intro hmem
      rcases mem_keys_jsSet hmem with hm | rfl
      · exact hnd hm
      · exact h1 rfl

/-! ### Flattened lookup lemmas -/

theorem wf_mem {fs : List (String × Json)} {k : String} {v : Json}
    (hwf : wfFields fs = true) (hm : (k, v) ∈ fs) :
    goodKey k = true ∧ wfVal v = true := by
  induction fs with
  | nil => cases hm
  | cons p rest ih =>
    obtain ⟨k1, v1⟩ := p
    obtain ⟨hk1, hv1, hnd, hrest⟩ := wf_cons hwf
    rcases List.mem_cons.mp hm with heq | hm2
    · rw [Prod.mk.injEq] at heq
      obtain ⟨rfl, rfl⟩ := heq
      exact ⟨hk1, hv1⟩
    · exact ih hrest hm2

theorem alookup_flattenVal_none {b q : String} {v : Json} (hb : b ≠ "")
    (hv : wfVal v = true) (hq : ¬ inRegion b q) :
    alookup (flattenVal b v) q = none := by
  cases hrl : alookup (flattenVal b v) q with
  | none => rfl
  | some u =>
    exact absurd (flatten_region_val b v q hb hv (mem_keys_of_alookup hrl)) hq

theorem alookup_flattenEntries_none {path q : String}
    {fs : List (String × Json)} (hwf : wfFields fs = true)
    (hdis : ∀ k2 v2, (k2, v2) ∈ fs → goodKey k2 = true →
      ¬ inRegion (joinPath path k2) q) :
    alookup (flattenEntries path fs) q = none := by
  cases hrl : alookup (flattenEntries path fs) q with
  | none => rfl
  | some w =>
    obtain ⟨k2, v2, hm, hk2, hreg⟩ :=
      flatten_region_entries path fs q hwf (mem_keys_of_alookup hrl)
    exact absurd hreg (hdis k2 v2 hm hk2)

theorem alookup_flatten_region {path k q : String} {fs : List (String × Json)}
    (hwf : wfFields fs = true) (hk : goodKey k = true)
    (hq : inRegion (joinPath path k) q) :
    alookup (flattenEntries path fs) q =
      match alookup fs k with
      | some v => alookup (flattenVal (joinPath path k) v) q
      | none => none := by
  induction fs with
  | nil => rfl
  | cons p rest ih =>
    obtain ⟨k1, v1⟩ := p
    obtain ⟨hk1, hv1, hnd, hrest⟩ := wf_cons hwf
    rw [flattenEntries, alookup_append]
    by_cases h1 : k1 = k
    · subst h1
      have ha : alookup ((k1, v1) :: rest) k1 = some v1 := by
        rw [alookup, if_pos rfl]
      rw [ha]
      have hnone : alookup (flattenEntries path rest) q = none := by
        refine alookup_flattenEntries_none hrest ?_
        intro k2 v2 hm2 hk2 hreg2
        have hk2ne : k2 ≠ k1 := fun he =>
          hnd (he ▸ (List.mem_map.mpr ⟨(k2, v2), hm2, rfl⟩))
        exact (region_disjoint hk2 hk1 hk2ne hreg2 hq).1 rfl
      rw [hnone]
      show (alookup (flattenVal (joinPath path k1) v1) q).or none =
        alookup (flattenVal (joinPath path k1) v1) q
      cases alookup (flattenVal (joinPath path k1) v1) q <;> rfl
    · have ha : alookup ((k1, v1) :: rest) k = alookup rest k := by
        rw [alookup, if_neg h1]
      rw [ha]
      have hnone : alookup (flattenVal (joinPath path k1) v1) q = none := by
        refine alookup_flattenVal_none (joinPath_ne_empty hk1) hv1 ?_
        intro hreg1
        exact (region_disjoint hk1 hk h1 hreg1 hq).1 rfl
      rw [hnone]
      exact ih hrest

theorem alookup_flattenVal_self {b : String} {v : Json} (hb : b ≠ "")
    (hv : wfVal v = true) :
    alookup (flattenVal b v) b =
      match v with
      | .obj _ => none
      | w => some w := by
  cases v with
  | obj fs =>
    rw [show flattenVal b (.obj fs) = flattenEntries b fs from rfl]
    refine alookup_flattenEntries_none (by rw [wfVal] at hv; exact hv) ?_
    intro k2 v2 hm2 hk2 hreg2
    have hext : strictExt b (joinPath b k2) := strictExt_joinPath hk2 hb
    rcases hreg2 with heq | hext2
    · exact absurd heq.symm (joinPath_ne_self hk2 hb)
    · exact absurd (strictExt_trans hext hext2) (strictExt_irrefl b)
  | null =>
    rw [show flattenVal b Json.null = [(b, Json.null)] from rfl]
    simp [alookup]
  | bool bb =>
    rw [show flattenVal b (Json.bool bb) = [(b, Json.bool bb)] from rfl]
    simp [alookup]
  | num n =>
    rw [show flattenVal b (Json.num n) = [(b, Json.num n)] from rfl]
    simp [alookup]
  | str s =>
    rw [show flattenVal b (Json.str s) = [(b, Json.str s)] from rfl]
    simp [alookup]
  | arr xs =>
    rw [show flattenVal b (Json.arr xs) = [(b, Json.arr xs)] from rfl]
    simp [alookup]
  | native nm =>
    rw [show flattenVal b (Json.native nm) = [(b, Json.native nm)] from rfl]
    simp [alookup]

theorem alookup_flatten_jsSet_out {path k q : String} {w : Json}
    {fs : List (String × Json)} (hwf : wfFields fs = true)
    (hk : goodKey k = true) (hw : wfVal w = true)
    (hq : ¬ inRegion (joinPath path k) q) :
    alookup (flattenEntries path (jsSet fs k w)) q =
      alookup (flattenEntries path fs) q := by
  induction fs with
  | nil =>
    rw [jsSet]
    simp only [flattenEntries]
    rw [List.append_nil, alookup_flattenVal_none (joinPath_ne_empty hk) hw hq]
    rfl
  | cons p rest ih =>
    obtain ⟨k1, v1⟩ := p
    obtain ⟨hk1, hv1, hnd, hrest⟩ := wf_cons hwf
    by_cases h1 : k1 = k
    · subst h1
      rw [jsSet, if_pos rfl, flattenEntries, flattenEntries, alookup_append,
        alookup_append,
        alookup_flattenVal_none (joinPath_ne_empty hk1) hw hq,
        alookup_flattenVal_none (joinPath_ne_empty hk1) hv1 hq]
    · rw [jsSet, if_neg h1, flattenEntries, flattenEntries, alookup_append,
        alookup_append, ih hrest]

theorem objPath_of_alookup_obj {path k : String} {fs gs : List (String × Json)}
    (h : alookup fs k = some (.obj gs)) :
    joinPath path k ∈ objPathsEntries path fs :=
  mem_objPaths_of_mem (alookup_mem h) (by
    rw [show objPathsVal (joinPath path k) (.obj gs) =
      joinPath path k :: objPathsEntries (joinPath path k) gs from rfl]
    exact List.mem_cons_self _ _)

theorem leafPath_of_alookup_leaf {path k : String} {fs : List (String × Json)}
    {w : Json} (h : alookup fs k = some w) (hno : ∀ gs, w ≠ .obj gs) :
    joinPath path k ∈ (flattenEntries path fs).map Prod.fst := by
  have hl : (joinPath path k, w) ∈ flattenVal (joinPath path k) w := by
    cases w with
    | obj gs => exact absurd rfl (hno gs)
    | null => exact List.mem_cons_self _ _
    | bool bb => exact List.mem_cons_self _ _
    | num n => exact List.mem_cons_self _ _
    | str s => exact List.mem_cons_self _ _
    | arr xs => exact List.mem_cons_self _ _
    | native nm => exact List.mem_cons_self _ _
  exact List.mem_map.mpr
    ⟨(joinPath path k, w), mem_flatten_of_mem (alookup_mem h) hl, rfl⟩

mutual

theorem flatten_nodup_entries : ∀ (path : String) (fs : List (String × Json)),
    wfFields fs = true → ((flattenEntries path fs).map Prod.fst).Nodup
  | path, [], _ => by simp [flattenEntries]
  | path, (k, v) :: rest, hwf => by
      obtain ⟨hk, hv, hnd, hrest⟩ := wf_cons hwf
      rw [flattenEntries, List.map_append, List.nodup_append]
      refine ⟨flatten_nodup_val (joinPath path k) v (joinPath_ne_empty hk) hv,
        flatten_nodup_entries path rest hrest, ?_⟩
      intro a ha hb
      obtain ⟨k2, v2, hm2, hk2, hreg2⟩ :=
        flatten_region_entries path rest a hrest hb
      have hreg1 := flatten_region_val (joinPath path k) v a
        (joinPath_ne_empty hk) hv ha
      have hkne : k ≠ k2 := fun he =>
        hnd (he ▸ (List.mem_map.mpr ⟨(k2, v2), hm2, rfl⟩))
      exact (region_disjoint hk hk2 hkne hreg1 hreg2).1 rfl

theorem flatten_nodup_val : ∀ (p : String) (v : Json), p ≠ "" →
    wfVal v = true → ((flattenVal p v).map Prod.fst).Nodup
  | p, .obj fs, hp, hv =>
      flatten_nodup_entries p fs (by rw [wfVal] at hv; exact hv)
  | p, .null, _, _ => by
      rw [show flattenVal p Json.null = [(p, Json.null)] from rfl]
      simp
  | p, .bool b, _, _ => by
      rw [show flattenVal p (Json.bool b) = [(p, Json.bool b)] from rfl]
      simp
  | p, .num n, _, _ => by
      rw [show flattenVal p (Json.num n) = [(p, Json.num n)] from rfl]
      simp
  | p, .str s, _, _ => by
      rw [show flattenVal p (Json.str s) = [(p, Json.str s)] from rfl]
      simp
  | p, .arr xs, _, _ => by
      rw [show flattenVal p (Json.arr xs) = [(p, Json.arr xs)] from rfl]
      simp
  | p, .native nm, _, _ => by
      rw [show flattenVal p (Json.native nm) = [(p, Json.native nm)] from rfl]
      simp

end

/-! ### Fold helper lemmas -/

theorem conflictFold_cons (info : SourceInfo) (tl : List (String × Json))
    (l : String × Json) (rest : List (String × Json)) (c : ConflictMap) :
    conflictFold info tl (l :: rest) c =
      conflictFold info tl rest
        (match alookup tl l.1 with
         | some w =>
             if w ≠ l.2 then
               jsPush c l.1
                 ⟨info.callId, info.callName, w, l.2, info.sourceIndex⟩
             else c
         | none => c) := rfl

theorem conflictFold_append (info : SourceInfo) (tl : List (String × Json))
    (xs ys : List (String × Json)) (c : ConflictMap) :
    conflictFold info tl (xs ++ ys) c =
      conflictFold info tl ys (conflictFold info tl xs c) := by
  unfold conflictFold
  rw [List.foldl_append]

theorem conflictFold_congr {info : SourceInfo} {tl1 tl2 : List (String × Json)}
    {leaves : List (String × Json)}
    (h : ∀ l ∈ leaves, alookup tl1 l.1 = alookup tl2 l.1) :
    ∀ c, conflictFold info tl1 leaves c = conflictFold info tl2 leaves c := by
  induction leaves with
  | nil => intro c; rfl
  | cons l rest ih =>
    intro c
    rw [conflictFold_cons, conflictFold_cons, h l (by simp)]
    exact ih (fun x hx => h x (by simp [hx])) _

theorem propFold_cons (info : SourceInfo) (l : String × Json)
    (rest : List (String × Json)) (p : PropSourceMap) :
    propFold info (l :: rest) p =
      propFold info rest
        (jsPush p l.1 ⟨info.callId, info.callName, l.2, info.sourceIndex⟩) :=
  rfl

theorem propFold_append (info : SourceInfo) (xs ys : List (String × Json))
    (p : PropSourceMap) :
    propFold info (xs ++ ys) p = propFold info ys (propFold info xs p) := by
  unfold propFold
  rw [List.foldl_append]

theorem valuesFold_cons (l : String × Json) (rest : List (String × Json))
    (m : List (String × Json)) :
    valuesFold (l :: rest) m = valuesFold rest (jsSet m l.1 l.2) := rfl

theorem valuesFold_append (xs ys : List (String × Json))
    (m : List (String × Json)) :
    valuesFold (xs ++ ys) m = valuesFold ys (valuesFold xs m) := by
  unfold valuesFold
  rw [List.foldl_append]

theorem alookup_valuesFold_nodup {leaves : List (String × Json)}
    (hnd : (leaves.map Prod.fst).Nodup) (m : List (String × Json))
    (q : String) :
    alookup (valuesFold leaves m) q = (alookup leaves q).or (alookup m q) := by
  induction leaves generalizing m with
  | nil => rfl
  | cons l rest ih =>
    obtain ⟨p0, v0⟩ := l
    rw [List.map_cons, List.nodup_cons] at hnd
    rw [valuesFold_cons, ih hnd.2, alookup_jsSet]
    by_cases hp : p0 = q
    · subst hp
      have h0 : alookup rest p0 = none := alookup_eq_none (by simpa using hnd.1)
      have ha : alookup ((p0, v0) :: rest) p0 = some v0 := by
        rw [alookup, if_pos rfl]
      rw [ha, h0, if_pos rfl]
      rfl
    · have ha : alookup ((p0, v0) :: rest) q = alookup rest q := by
        rw [alookup, if_neg hp]
      rw [ha, if_neg hp]

/-! ### The merge recursion against the flattened specification -/

theorem flattenVal_leaf {p : String} {v : Json}
    (h : ∀ gs, v ≠ Json.obj gs) : flattenVal p v = [(p, v)] := by
  cases v with
  | obj gs => exact absurd rfl (h gs)
  | null => rfl
  | bool b => rfl
  | num n => rfl
  | str s => rfl
  | arr xs => rfl
  | native nm => rfl

theorem objPathsVal_leaf {p : String} {v : Json}
    (h : ∀ gs, v ≠ Json.obj gs) : objPathsVal p v = [] := by
  cases v with
  | obj gs => exact absurd rfl (h gs)
  | null => rfl
  | bool b => rfl
  | num n => rfl
  | str s => rfl
  | arr xs => rfl
  | native nm => rfl

theorem deepMergeEntry_leaf_spec (target : List (String × Json)) (key : String)
    (value : Json) (info : SourceInfo) (c : ConflictMap) (p : PropSourceMap)
    (path : String) (hwt : wfFields target = true) (hk : goodKey key = true)
    (hv : wfVal value = true) (hval : ∀ gs, value ≠ Json.obj gs)
    (hc1 : ∀ q ∈ (flattenVal (joinPath path key) value).map Prod.fst,
      q ∉ objPathsEntries path target)
    (heq : deepMergeEntry target key value info c p path =
      (jsSet target key value,
       (match alookup target key with
        | some old =>
            if old ≠ value then
              jsPush c (joinPath path key)
                ⟨info.callId, info.callName, old, value, info.sourceIndex⟩
            else c
        | none => c),
       jsPush p (joinPath path key)
         ⟨info.callId, info.callName, value, info.sourceIndex⟩)) :
    (∀ q, alookup (flattenEntries path
        (deepMergeEntry target key value info c p path).1) q =
      (alookup (flattenVal (joinPath path key) value) q).or
        (alookup (flattenEntries path target) q)) ∧
    (deepMergeEntry target key value info c p path).2.1 =
      conflictFold info (flattenEntries path target)
        (flattenVal (joinPath path key) value) c ∧
    (deepMergeEntry target key value info c p path).2.2 =
      propFold info (flattenVal (joinPath path key) value) p ∧
    wfFields (deepMergeEntry target key value info c p path).1 = true ∧
    (∀ q ∈ (flattenEntries path
        (deepMergeEntry target key value info c p path).1).map Prod.fst,
      q ∈ (flattenVal (joinPath path key) value).map Prod.fst ∨
        q ∈ (flattenEntries path target).map Prod.fst) ∧
    (∀ q ∈ objPathsEntries path
        (deepMergeEntry target key value info c p path).1,
      q ∈ objPathsVal (joinPath path key) value ∨
        q ∈ objPathsEntries path target) := by
  have hq0 : joinPath path key ∉ objPathsEntries path target := by
    apply hc1
    rw [flattenVal_leaf hval]
    simp
  have hold : ∀ gs, alookup target key ≠ some (Json.obj gs) := by
    intro gs hcon
    exact hq0 (objPath_of_alookup_obj hcon)
  have hFT : alookup (flattenEntries path target) (joinPath path key) =
      alookup target key := by
    rw [alookup_flatten_region hwt hk (Or.inl rfl)]
    cases ha : alookup target key with
    | none => rfl
    | some old =>
      obtain ⟨hko, hvo⟩ := wf_mem hwt (alookup_mem ha)
      dsimp only
      rw [alookup_flattenVal_self (joinPath_ne_empty hk) hvo]
      cases old with
      | obj gs => exact absurd ha (hold gs)
      | null => rfl
      | bool b => rfl
      | num n => rfl
      | str s => rfl
      | arr xs => rfl
      | native nm => rfl
  rw [heq]
  dsimp only
  refine ⟨?_, ?_, ?_, wfFields_jsSet hwt hk hv, ?_, ?_⟩
  · intro q
    by_cases hreg : inRegion (joinPath path key) q
    · rw [alookup_flatten_region (wfFields_jsSet hwt hk hv) hk hreg,
        alookup_jsSet, if_pos rfl]
      dsimp only
      by_cases hqq : joinPath path key = q
      · subst hqq
        rw [flattenVal_leaf hval]
        simp [alookup]
      · have hnone : alookup (flattenVal (joinPath path key) value) q =
            none := by
          rw [flattenVal_leaf hval, alookup, if_neg hqq]
          rfl
        rw [hnone]
        have hFTq : alookup (flattenEntries path target) q = none := by
          rw [alookup_flatten_region hwt hk hreg]
          cases ha : alookup target key with
          | none => rfl
          | some old =>
            have holdl : ∀ gs, old ≠ Json.obj gs := by
              intro gs hcon
              exact hold gs (hcon ▸ ha)
            dsimp only
            rw [flattenVal_leaf holdl, alookup, if_neg hqq]
            rfl
        rw [hFTq]
        rfl
    · rw [alookup_flatten_jsSet_out hwt hk hv hreg,
        alookup_flattenVal_none (joinPath_ne_empty hk) hv hreg]
      rfl
  · rw [flattenVal_leaf hval, conflictFold_cons, hFT]
    cases alookup target key <;> rfl
  · rw [flattenVal_leaf hval, propFold_cons]
    rfl
  · intro q hq
    rcases mem_keys_flatten_jsSet hq with hl | hr
    · exact Or.inl hl
    · exact Or.inr hr
  · intro q hq
    rcases mem_objPaths_jsSet hq with hl | hr
    · rw [objPathsVal_leaf hval] at hl
      cases hl
    · exact Or.inr hr

theorem flattenVal_obj (p : String) (fs : List (String × Json)) :
    flattenVal p (Json.obj fs) = flattenEntries p fs := rfl

theorem objPathsVal_obj (p : String) (fs : List (String × Json)) :
    objPathsVal p (Json.obj fs) = p :: objPathsEntries p fs := rfl

theorem inner_compat {target sub innerFields : List (String × Json)}
    {path key : String}
    (hc1 : ∀ q ∈ (flattenVal (joinPath path key)
        (Json.obj innerFields)).map Prod.fst, q ∉ objPathsEntries path target)
    (hc2 : ∀ q ∈ objPathsVal (joinPath path key) (Json.obj innerFields),
      q ∉ (flattenEntries path target).map Prod.fst)
    (hkeys : ∀ q ∈ (flattenEntries (joinPath path key) sub).map Prod.fst,
      q ∈ (flattenEntries path target).map Prod.fst)
    (hops : ∀ q ∈ objPathsEntries (joinPath path key) sub,
      q ∈ objPathsEntries path target) :
    (∀ q ∈ (flattenEntries (joinPath path key) innerFields).map Prod.fst,
      q ∉ objPathsEntries (joinPath path key) sub) ∧
    (∀ q ∈ objPathsEntries (joinPath path key) innerFields,
      q ∉ (flattenEntries (joinPath path key) sub).map Prod.fst) := by
  constructor
  · intro q hq hop
    refine hc1 q ?_ (hops q hop)
    rw [flattenVal_obj]
    exact hq
  · intro q hq hfe
    refine hc2 q ?_ (hkeys q hfe)
    rw [objPathsVal_obj]
    exact List.mem_cons_of_mem _ hq

theorem deepMergeEntry_obj_spec (target sub innerFields : List (String × Json))
    (key : String) (info : SourceInfo) (c : ConflictMap) (p : PropSourceMap)
    (path : String) (hwt : wfFields target = true) (hk : goodKey key = true)
    (hv : wfVal (Json.obj innerFields) = true)
    (hvals : ∀ q, inRegion (joinPath path key) q →
      alookup (flattenEntries path target) q =
        alookup (flattenEntries (joinPath path key) sub) q)
    (hkeys : ∀ q ∈ (flattenEntries (joinPath path key) sub).map Prod.fst,
      q ∈ (flattenEntries path target).map Prod.fst)
    (hops : ∀ q ∈ objPathsEntries (joinPath path key) sub,
      q ∈ objPathsEntries path target)
    (HB : (∀ q, alookup (flattenEntries (joinPath path key)
        (deepMergeWithTracking sub innerFields info c p
          (joinPath path key)).1) q =
      (alookup (flattenEntries (joinPath path key) innerFields) q).or
        (alookup (flattenEntries (joinPath path key) sub) q)) ∧
      (deepMergeWithTracking sub innerFields info c p
        (joinPath path key)).2.1 =
        conflictFold info (flattenEntries (joinPath path key) sub)
          (flattenEntries (joinPath path key) innerFields) c ∧
      (deepMergeWithTracking sub innerFields info c p
        (joinPath path key)).2.2 =
        propFold info (flattenEntries (joinPath path key) innerFields) p ∧
      wfFields (deepMergeWithTracking sub innerFields info c p
        (joinPath path key)).1 = true ∧
      (∀ q ∈ (flattenEntries (joinPath path key)
          (deepMergeWithTracking sub innerFields info c p
            (joinPath path key)).1).map Prod.fst,
        q ∈ (flattenEntries (joinPath path key) innerFields).map Prod.fst ∨
          q ∈ (flattenEntries (joinPath path key) sub).map Prod.fst) ∧
      (∀ q ∈ objPathsEntries (joinPath path key)
          (deepMergeWithTracking sub innerFields info c p
            (joinPath path key)).1,
        q ∈ objPathsEntries (joinPath path key) innerFields ∨
          q ∈ objPathsEntries (joinPath path key) sub))
    (heq : deepMergeEntry target key (Json.obj innerFields) info c p path =
      (jsSet target key
        (Json.obj (deepMergeWithTracking sub innerFields info c p
          (joinPath path key)).1),
       (deepMergeWithTracking sub innerFields info c p
         (joinPath path key)).2.1,
       (deepMergeWithTracking sub innerFields info c p
         (joinPath path key)).2.2)) :
    (∀ q, alookup (flattenEntries path
        (deepMergeEntry target key (Json.obj innerFields) info c p path).1) q =
      (alookup (flattenVal (joinPath path key) (Json.obj innerFields)) q).or
        (alookup (flattenEntries path target) q)) ∧
    (deepMergeEntry target key (Json.obj innerFields) info c p path).2.1 =
      conflictFold info (flattenEntries path target)
        (flattenVal (joinPath path key) (Json.obj innerFields)) c ∧
    (deepMergeEntry target key (Json.obj innerFields) info c p path).2.2 =
      propFold info (flattenVal (joinPath path key) (Json.obj innerFields)) p ∧
    wfFields (deepMergeEntry target key (Json.obj innerFields) info c p
      path).1 = true ∧
    (∀ q ∈ (flattenEntries path
        (deepMergeEntry target key (Json.obj innerFields) info c p
          path).1).map Prod.fst,
      q ∈ (flattenVal (joinPath path key)
          (Json.obj innerFields)).map Prod.fst ∨
        q ∈ (flattenEntries path target).map Prod.fst) ∧
    (∀ q ∈ objPathsEntries path
        (deepMergeEntry target key (Json.obj innerFields) info c p path).1,
      q ∈ objPathsVal (joinPath path key) (Json.obj innerFields) ∨
        q ∈ objPathsEntries path target) := by
  obtain ⟨B1, B2, B3, B4, B5a, B5b⟩ := HB
  have hwres : wfVal (Json.obj (deepMergeWithTracking sub innerFields info c p
      (joinPath path key)).1) = true := B4
  rw [heq]
  dsimp only
  refine ⟨?_, ?_, ?_, wfFields_jsSet hwt hk hwres, ?_, ?_⟩
  · intro q
    by_cases hreg : inRegion (joinPath path key) q
    · rw [alookup_flatten_region (wfFields_jsSet hwt hk hwres) hk hreg,
        alookup_jsSet, if_pos rfl]
      dsimp only
      rw [flattenVal_obj, B1 q, hvals q hreg, flattenVal_obj]
    · rw [alookup_flatten_jsSet_out hwt hk hwres hreg,
        alookup_flattenVal_none (joinPath_ne_empty hk) hv hreg]
      rfl
  · rw [B2, flattenVal_obj]
    refine conflictFold_congr ?_ c
    intro l hl
    refine (hvals l.1 ?_).symm
    refine flatten_region_val (joinPath path key) (Json.obj innerFields) l.1
      (joinPath_ne_empty hk) hv ?_
    rw [flattenVal_obj]
    exact List.mem_map.mpr ⟨l, hl, rfl⟩
  · rw [B3, flattenVal_obj]
  · intro q hq
    rcases mem_keys_flatten_jsSet hq with hl | hr
    · rw [flattenVal_obj] at hl
      rcases B5a q hl with hi | hs
      · refine Or.inl ?_
        rw [flattenVal_obj]
        exact hi
      · exact Or.inr (hkeys q hs)
    · exact Or.inr hr
  · intro q hq
    rcases mem_objPaths_jsSet hq with hl | hr
    · rw [objPathsVal_obj] at hl
      rcases List.mem_cons.mp hl with rfl | h2
      · refine Or.inl ?_
        rw [objPathsVal_obj]
        exact List.mem_cons_self _ _
      · rcases B5b q h2 with hi | hs
        · refine Or.inl ?_
          rw [objPathsVal_obj]
          exact List.mem_cons_of_mem _ hi
        · exact Or.inr (hops q hs)
    · exact Or.inr hr

mutual

/-- The recursive merge, against the flattened view: starting from a
wellformed target with no leaf/object shape collision against the source,
the merged object's flattened lookups are those of the source with the
target as fallback, the conflict map is extended by exactly the fixed
comparison of every source leaf against the initial flattened target, the
provenance map is extended by one record per source leaf, wellformedness is
preserved, and no flattened or interior path appears that was not in the
source or the target. -/
theorem deepMerge_spec : ∀ (target source : List (String × Json))
    (info : SourceInfo) (c : ConflictMap) (p : PropSourceMap) (path : String),
    wfFields target = true → wfFields source = true →
    (∀ q ∈ (flattenEntries path source).map Prod.fst,
      q ∉ objPathsEntries path target) →
    (∀ q ∈ objPathsEntries path source,
      q ∉ (flattenEntries path target).map Prod.fst) →
    (∀ q, alookup (flattenEntries path
        (deepMergeWithTracking target source info c p path).1) q =
      (alookup (flattenEntries path source) q).or
        (alookup (flattenEntries path target) q)) ∧
    (deepMergeWithTracking target source info c p path).2.1 =
      conflictFold info (flattenEntries path target)
        (flattenEntries path source) c ∧
    (deepMergeWithTracking target source info c p path).2.2 =
      propFold info (flattenEntries path source) p ∧
    wfFields (deepMergeWithTracking target source info c p path).1 = true ∧
    (∀ q ∈ (flattenEntries path
        (deepMergeWithTracking target source info c p path).1).map Prod.fst,
      q ∈ (flattenEntries path source).map Prod.fst ∨
        q ∈ (flattenEntries path target).map Prod.fst) ∧
    (∀ q ∈ objPathsEntries path
        (deepMergeWithTracking target source info c p path).1,
      q ∈ objPathsEntries path source ∨ q ∈ objPathsEntries path target)
  | target, [], info, c, p, path, hwt, hws, hc1, hc2 =>
      ⟨fun q => rfl, rfl, rfl, hwt, fun q hq => Or.inr hq,
        fun q hq => Or.inr hq⟩
  | target, (k, v) :: rest, info, c, p, path, hwt, hws, hc1, hc2 => by
      obtain ⟨hk, hv, hnd, hwrest⟩ := wf_cons hws
      have hc1e : ∀ q ∈ (flattenVal (joinPath path k) v).map Prod.fst,
          q ∉ objPathsEntries path target := by
        intro q hq
        apply hc1
        rw [flattenEntries, List.map_append]
        exact List.mem_append_left _ hq
      have hc2e : ∀ q ∈ objPathsVal (joinPath path k) v,
          q ∉ (flattenEntries path target).map Prod.fst := by
        intro q hq
        apply hc2
        rw [objPathsEntries]
        exact List.mem_append_left _ hq
      obtain ⟨E1, E2, E3, E4, E5a, E5b⟩ :=
        deepMergeEntry_spec target k v info c p path hwt hk hv hc1e hc2e
      have hrestReg : ∀ q ∈ (flattenEntries path rest).map Prod.fst,
          ¬ inRegion (joinPath path k) q := by
        intro q hq hreg
        obtain ⟨k2, v2, hm2, hk2, hreg2⟩ :=
          flatten_region_entries path rest q hwrest hq
        have hne : k ≠ k2 := fun he =>
          hnd (he ▸ (List.mem_map.mpr ⟨(k2, v2), hm2, rfl⟩))
        exact (region_disjoint hk hk2 hne hreg hreg2).1 rfl
      have hrestRegO : ∀ q ∈ objPathsEntries path rest,
          ¬ inRegion (joinPath path k) q := by
        intro q hq hreg
        obtain ⟨k2, v2, hm2, hk2, hreg2⟩ :=
          objPaths_region_entries path rest q hwrest hq
        have hne : k ≠ k2 := fun he =>
          hnd (he ▸ (List.mem_map.mpr ⟨(k2, v2), hm2, rfl⟩))
        exact (region_disjoint hk hk2 hne hreg hreg2).1 rfl
      have hc1r : ∀ q ∈ (flattenEntries path rest).map Prod.fst,
          q ∉ objPathsEntries path
            (deepMergeEntry target k v info c p path).1 := by
        intro q hq hOP
        rcases E5b q hOP with hl | hr
        · exact hrestReg q hq (objPaths_region_val (joinPath path k) v q
            (joinPath_ne_empty hk) hv hl)
        · refine hc1 q ?_ hr
          rw [flattenEntries, List.map_append]
          exact List.mem_append_right _ hq
      have hc2r : ∀ q ∈ objPathsEntries path rest,
          q ∉ (flattenEntries path
            (deepMergeEntry target k v info c p path).1).map Prod.fst := by
        intro q hq hFE
        rcases E5a q hFE with hl | hr
        · exact hrestRegO q hq (flatten_region_val (joinPath path k) v q
            (joinPath_ne_empty hk) hv hl)
        · refine hc2 q ?_ hr
          rw [objPathsEntries]
          exact List.mem_append_right _ hq
      obtain ⟨A1, A2, A3, A4, A5a, A5b⟩ :=
        deepMerge_spec (deepMergeEntry target k v info c p path).1 rest info
          (deepMergeEntry target k v info c p path).2.1
          (deepMergeEntry target k v info c p path).2.2 path
          E4 hwrest hc1r hc2r
      have hunf : deepMergeWithTracking target ((k, v) :: rest) info c p path =
          deepMergeWithTracking (deepMergeEntry target k v info c p path).1
            rest info (deepMergeEntry target k v info c p path).2.1
            (deepMergeEntry target k v info c p path).2.2 path := rfl
      rw [hunf]
      refine ⟨?_, ?_, ?_, A4, ?_, ?_⟩
      · intro q
        rw [A1 q, E1 q, flattenEntries, alookup_append]
        cases hfr : alookup (flattenEntries path rest) q with
        | none =>
          cases hfv : alookup (flattenVal (joinPath path k) v) q <;> rfl
        | some w =>
          have hfvn : alookup (flattenVal (joinPath path k) v) q = none :=
            alookup_flattenVal_none (joinPath_ne_empty hk) hv
              (hrestReg q (mem_keys_of_alookup hfr))
          rw [hfvn]
          rfl
      · rw [A2, E2, flattenEntries, conflictFold_append]
        refine conflictFold_congr ?_ _
        intro l hl
        rw [E1 l.1, alookup_flattenVal_none (joinPath_ne_empty hk) hv
          (hrestReg l.1 (List.mem_map.mpr ⟨l, hl, rfl⟩))]
        rfl
      · rw [A3, E3, flattenEntries, propFold_append]
      · intro q hq
        rcases A5a q hq with hrq | htq
        · refine Or.inl ?_
          rw [flattenEntries, List.map_append]
          exact List.mem_append_right _ hrq
        · rcases E5a q htq with hl | hr
          · refine Or.inl ?_
            rw [flattenEntries, List.map_append]
            exact List.mem_append_left _ hl
          · exact Or.inr hr
      · intro q hq
        rcases A5b q hq with hrq | htq
        · refine Or.inl ?_
          rw [objPathsEntries]
          exact List.mem_append_right _ hrq
        · rcases E5b q htq with hl | hr
          · refine Or.inl ?_
            rw [objPathsEntries]
            exact List.mem_append_left _ hl
          · exact Or.inr hr

/-- One entry of the recursive merge, against the flattened view (the same
six conclusions, for the single source entry `(key, value)`). -/
theorem deepMergeEntry_spec : ∀ (target : List (String × Json)) (key : String)
    (value : Json) (info : SourceInfo) (c : ConflictMap) (p : PropSourceMap)
    (path : String),
    wfFields target = true → goodKey key = true → wfVal value = true →
    (∀ q ∈ (flattenVal (joinPath path key) value).map Prod.fst,
      q ∉ objPathsEntries path target) →
    (∀ q ∈ objPathsVal (joinPath path key) value,
      q ∉ (flattenEntries path target).map Prod.fst) →
    (∀ q, alookup (flattenEntries path
        (deepMergeEntry target key value info c p path).1) q =
      (alookup (flattenVal (joinPath path key) value) q).or
        (alookup (flattenEntries path target) q)) ∧
    (deepMergeEntry target key value info c p path).2.1 =
      conflictFold info (flattenEntries path target)
        (flattenVal (joinPath path key) value) c ∧
    (deepMergeEntry target key value info c p path).2.2 =
      propFold info (flattenVal (joinPath path key) value) p ∧
    wfFields (deepMergeEntry target key value info c p path).1 = true ∧
    (∀ q ∈ (flattenEntries path
        (deepMergeEntry target key value info c p path).1).map Prod.fst,
      q ∈ (flattenVal (joinPath path key) value).map Prod.fst ∨
        q ∈ (flattenEntries path target).map Prod.fst) ∧
    (∀ q ∈ objPathsEntries path
        (deepMergeEntry target key value info c p path).1,
      q ∈ objPathsVal (joinPath path key) value ∨
        q ∈ objPathsEntries path target)
  | target, key, .obj innerFields, info, c, p, path, hwt, hk, hv, hc1, hc2 => by
      have hwinner : wfFields innerFields = true := hv
      cases halook : alookup target key with
      | none =>
        have hvals : ∀ q, inRegion (joinPath path key) q →
            alookup (flattenEntries path target) q =
              alookup (flattenEntries (joinPath path key)
                ([] : List (String × Json))) q := by
          intro q hreg
          rw [alookup_flatten_region hwt hk hreg, halook]
          rfl
        have hkeys : ∀ q ∈ (flattenEntries (joinPath path key)
            ([] : List (String × Json))).map Prod.fst,
            q ∈ (flattenEntries path target).map Prod.fst := by
          intro q hq
          simp [flattenEntries] at hq
        have hops : ∀ q ∈ objPathsEntries (joinPath path key)
            ([] : List (String × Json)),
            q ∈ objPathsEntries path target := by
          intro q hq
          simp [objPathsEntries] at hq
        obtain ⟨hc1i, hc2i⟩ := inner_compat hc1 hc2 hkeys hops
        exact deepMergeEntry_obj_spec target [] innerFields key info c p path
          hwt hk hv hvals hkeys hops
          (deepMerge_spec [] innerFields info c p (joinPath path key) rfl
            hwinner hc1i hc2i)
          (by simp only [deepMergeEntry, halook])
      | some w =>
        by_cases hobj : ∃ gs, w = Json.obj gs
        · obtain ⟨fs, rfl⟩ := hobj
          have hwsub : wfFields fs = true := (wf_mem hwt (alookup_mem halook)).2
          have hvals : ∀ q, inRegion (joinPath path key) q →
              alookup (flattenEntries path target) q =
                alookup (flattenEntries (joinPath path key) fs) q := by
            intro q hreg
            rw [alookup_flatten_region hwt hk hreg, halook]
            rfl
          have hkeys : ∀ q ∈ (flattenEntries (joinPath path key)
              fs).map Prod.fst,
              q ∈ (flattenEntries path target).map Prod.fst := by
            intro q hq
            obtain ⟨l, hlm, hlq⟩ := List.mem_map.mp hq
            refine List.mem_map.mpr ⟨l, ?_, hlq⟩
            refine mem_flatten_of_mem (alookup_mem halook) ?_
            rw [flattenVal_obj]
            exact hlm
          have hops : ∀ q ∈ objPathsEntries (joinPath path key) fs,
              q ∈ objPathsEntries path target := by
            intro q hq
            refine mem_objPaths_of_mem (alookup_mem halook) ?_
            rw [objPathsVal_obj]
            exact List.mem_cons_of_mem _ hq
          obtain ⟨hc1i, hc2i⟩ := inner_compat hc1 hc2 hkeys hops
          exact deepMergeEntry_obj_spec target fs innerFields key info c p path
            hwt hk hv hvals hkeys hops
            (deepMerge_spec fs innerFields info c p (joinPath path key) hwsub
              hwinner hc1i hc2i)
            (by simp only [deepMergeEntry, halook])
        · refine absurd (leafPath_of_alookup_leaf halook
            (fun gs h => hobj ⟨gs, h⟩)) (hc2 _ ?_)
          rw [objPathsVal_obj]
          exact List.mem_cons_self _ _
  | target, key, .null, info, c, p, path, hwt, hk, hv, hc1, hc2 =>
      deepMergeEntry_leaf_spec target key .null info c p path hwt hk hv
        (fun gs h => Json.noConfusion h) hc1 rfl
  | target, key, .bool b, info, c, p, path, hwt, hk, hv, hc1, hc2 =>
      deepMergeEntry_leaf_spec target key (.bool b) info c p path hwt hk hv
        (fun gs h => Json.noConfusion h) hc1 rfl
  | target, key, .num n, info, c, p, path, hwt, hk, hv, hc1, hc2 =>
      deepMergeEntry_leaf_spec target key (.num n) info c p path hwt hk hv
        (fun gs h => Json.noConfusion h) hc1 rfl
  | target, key, .str s, info, c, p, path, hwt, hk, hv, hc1, hc2 =>
      deepMergeEntry_leaf_spec target key (.str s) info c p path hwt hk hv
        (fun gs h => Json.noConfusion h) hc1 rfl
  | target, key, .arr xs, info, c, p, path, hwt, hk, hv, hc1, hc2 =>
      deepMergeEntry_leaf_spec target key (.arr xs) info c p path hwt hk hv
        (fun gs h => Json.noConfusion h) hc1 rfl
  | target, key, .native nm, info, c, p, path, hwt, hk, hv, hc1, hc2 =>
      deepMergeEntry_leaf_spec target key (.native nm) info c p path hwt hk hv
        (fun gs h => Json.noConfusion h) hc1 rfl

end

/-! ### The specified leaf fold, decomposed -/

theorem specLeafStep_values (i : SourceInfo) (A : SpecAcc)
    (l : String × Json) :
    (specLeafStep i A l).values = jsSet A.values l.1 l.2 := rfl

theorem specLeafStep_props (i : SourceInfo) (A : SpecAcc) (l : String × Json) :
    (specLeafStep i A l).propertySources =
      jsPush A.propertySources l.1 ⟨i.callId, i.callName, l.2, i.sourceIndex⟩ :=
  rfl

theorem specLeafStep_conflicts_other {i : SourceInfo} {A : SpecAcc}
    {l : String × Json} {p : String} (hne : l.1 ≠ p) :
    alookup (specLeafStep i A l).conflicts p = alookup A.conflicts p := by
  unfold specLeafStep
  dsimp only
  cases alookup A.values l.1 with
  | none => rfl
  | some w =>
    dsimp only
    by_cases hwv : w ≠ l.2
    · rw [if_pos hwv, alookup_jsPush, if_neg hne]
    · rw [if_neg hwv]

theorem specLeafStep_conflicts_self {i : SourceInfo} {A : SpecAcc}
    {l : String × Json}
    (hv : alookup A.values l.1 = none ∨ alookup A.values l.1 = some l.2) :
    (specLeafStep i A l).conflicts = A.conflicts := by
  unfold specLeafStep
  dsimp only
  rcases hv with h0 | h0
  · rw [h0]
  · rw [h0]
    dsimp only
    rw [if_neg (fun hh => hh rfl)]

theorem specFold_decompose {info : SourceInfo} :
    ∀ (leaves : List (String × Json)) (A : SpecAcc),
    (leaves.map Prod.fst).Nodup →
    leaves.foldl (specLeafStep info) A =
      ⟨valuesFold leaves A.values,
       conflictFold info A.values leaves A.conflicts,
       propFold info leaves A.propertySources⟩
  | [], A, _ => rfl
  | (p0, v0) :: rest, A, hnd => by
      rw [List.map_cons, List.nodup_cons] at hnd
      rw [List.foldl_cons,
        specFold_decompose rest (specLeafStep info A (p0, v0)) hnd.2]
      rw [valuesFold_cons, conflictFold_cons, propFold_cons]
      have hlk : ∀ l ∈ rest, alookup (jsSet A.values p0 v0) l.1 =
          alookup A.values l.1 := by
        intro l hl
        have hne : ¬ p0 = l.1 := by
          intro he
          refine hnd.1 ?_
          rw [he]
          exact List.mem_map.mpr ⟨l, hl, rfl⟩
        rw [alookup_jsSet, if_neg hne]
      rw [show (specLeafStep info A (p0, v0)).values =
        jsSet A.values p0 v0 from rfl]
      rw [conflictFold_congr hlk]
      rfl

theorem specMergeFold_eq_allLeaves :
    ∀ (items : List (SourceInfo × Json)) (A : SpecAcc),
    items.foldl (fun acc item =>
      (flattenEntries "" (jsEntries item.2)).foldl (specLeafStep item.1) acc)
      A =
    (allLeaves items).foldl (fun acc x => specLeafStep x.1 acc x.2) A
  | [], A => rfl
  | it :: rest, A => by
      rw [List.foldl_cons, specMergeFold_eq_allLeaves rest _]
      rw [show allLeaves (it :: rest) =
        (flattenEntries "" (jsEntries it.2)).map (fun l => (it.1, l)) ++
          allLeaves rest from rfl]
      rw [List.foldl_append, List.foldl_map]

theorem specFold_lastVal :
    ∀ (ls : List (SourceInfo × String × Json)) (A : SpecAcc) (p : String),
    alookup (ls.foldl (fun acc x => specLeafStep x.1 acc x.2) A).values p =
      (lastVal p ls).or (alookup A.values p)
  | [], A, p => rfl
  | (i, q, v) :: rest, A, p => by
      rw [List.foldl_cons, specFold_lastVal rest _ p,
        show (specLeafStep i A (q, v)).values = jsSet A.values q v from rfl,
        alookup_jsSet, lastVal]
      cases lastVal p rest with
      | some w => rfl
      | none =>
        dsimp only
        by_cases hqp : q = p
        · rw [if_pos hqp, if_pos hqp]
          rfl
        · rw [if_neg hqp, if_neg hqp]

theorem specFold_no_conflict :
    ∀ (ls : List (SourceInfo × String × Json)) (A : SpecAcc) (p : String)
    (v0 : Json),
    (∀ x ∈ ls, x.2.1 = p → x.2.2 = v0) →
    (alookup A.values p = none ∨ alookup A.values p = some v0) →
    alookup (ls.foldl (fun acc x => specLeafStep x.1 acc x.2) A).conflicts p =
      alookup A.conflicts p
  | [], A, p, v0, _, _ => rfl
  | (i, q, v) :: rest, A, p, v0, h, hvals => by
      rw [List.foldl_cons]
      by_cases hqp : q = p
      · subst hqp
        have hv : v = v0 := h (i, q, v) (List.mem_cons_self _ _) rfl
        subst hv
        have hvp : alookup (specLeafStep i A (q, v)).values q = some v := by
          rw [show (specLeafStep i A (q, v)).values =
            jsSet A.values q v from rfl, alookup_jsSet, if_pos rfl]
        rw [specFold_no_conflict rest _ q v
          (fun x hx hxp => h x (List.mem_cons_of_mem _ hx) hxp)
          (Or.inr hvp)]
        rw [specLeafStep_conflicts_self hvals]
      · have hvp : alookup (specLeafStep i A (q, v)).values p =
            alookup A.values p := by
          rw [show (specLeafStep i A (q, v)).values =
            jsSet A.values q v from rfl, alookup_jsSet, if_neg hqp]
        rw [specFold_no_conflict rest _ p v0
          (fun x hx hxp => h x (List.mem_cons_of_mem _ hx) hxp)
          (hvp ▸ hvals)]
        exact specLeafStep_conflicts_other hqp

theorem compatB_spec {a b : Json} (h : compatB a b = true) :
    (∀ q ∈ (flattenEntries "" (jsEntries a)).map Prod.fst,
      q ∉ objPathsEntries "" (jsEntries b)) ∧
    (∀ q ∈ objPathsEntries "" (jsEntries a),
      q ∉ (flattenEntries "" (jsEntries b)).map Prod.fst) := by
  unfold compatB at h
  rw [Bool.and_eq_true] at h
  constructor
  · intro q hq
    have h2 := List.all_eq_true.mp h.1 q hq
    rw [Bool.not_eq_true'] at h2
    exact contains_false_iff.mp h2
  · intro q hq
    have h2 := List.all_eq_true.mp h.2 q hq
    rw [Bool.not_eq_true'] at h2
    exact contains_false_iff.mp h2

theorem mergeFold_go_spec : ∀ (items : List (SourceInfo × Json))
    (T : List (String × Json)) (C : ConflictMap) (P : PropSourceMap)
    (A : SpecAcc),
    (∀ it ∈ items, wfFields (jsEntries it.2) = true) →
    pairwiseCompatB items = true →
    wfFields T = true →
    (∀ it ∈ items,
      (∀ q ∈ (flattenEntries "" (jsEntries it.2)).map Prod.fst,
        q ∉ objPathsEntries "" T) ∧
      (∀ q ∈ objPathsEntries "" (jsEntries it.2),
        q ∉ (flattenEntries "" T).map Prod.fst)) →
    (∀ q, alookup (flattenEntries "" T) q = alookup A.values q) →
    C = A.conflicts → P = A.propertySources →
    (∀ q, alookup (flattenEntries ""
        (items.foldl (fun acc item => deepMergeWithTracking acc.1
          (jsEntries item.2) item.1 acc.2.1 acc.2.2 "") (T, C, P)).1) q =
      alookup (items.foldl (fun acc item =>
        (flattenEntries "" (jsEntries item.2)).foldl (specLeafStep item.1)
        acc) A).values q) ∧
    (items.foldl (fun acc item => deepMergeWithTracking acc.1
      (jsEntries item.2) item.1 acc.2.1 acc.2.2 "") (T, C, P)).2.1 =
      (items.foldl (fun acc item =>
        (flattenEntries "" (jsEntries item.2)).foldl (specLeafStep item.1)
        acc) A).conflicts ∧
    (items.foldl (fun acc item => deepMergeWithTracking acc.1
      (jsEntries item.2) item.1 acc.2.1 acc.2.2 "") (T, C, P)).2.2 =
      (items.foldl (fun acc item =>
        (flattenEntries "" (jsEntries item.2)).foldl (specLeafStep item.1)
        acc) A).propertySources
  | [], T, C, P, A, _, _, _, _, hI1, hI2, hI3 => ⟨hI1, hI2, hI3⟩
  | it :: rest, T, C, P, A, hwf, hcompat, hwT, hcT, hI1, hI2, hI3 => by
      rw [pairwiseCompatB, Bool.and_eq_true] at hcompat
      obtain ⟨hall, hprest⟩ := hcompat
      have hwit : wfFields (jsEntries it.2) = true :=
        hwf it (List.mem_cons_self _ _)
      obtain ⟨hc1T, hc2T⟩ := hcT it (List.mem_cons_self _ _)
      obtain ⟨A1, A2, A3, A4, A5a, A5b⟩ :=
        deepMerge_spec T (jsEntries it.2) it.1 C P "" hwT hwit hc1T hc2T
      have hndit : ((flattenEntries "" (jsEntries it.2)).map Prod.fst).Nodup :=
        flatten_nodup_entries "" (jsEntries it.2) hwit
      have hspec := @specFold_decompose it.1
        (flattenEntries "" (jsEntries it.2)) A hndit
      rw [List.foldl_cons, List.foldl_cons]
      dsimp only
      refine mergeFold_go_spec rest
        (deepMergeWithTracking T (jsEntries it.2) it.1 C P "").1
        (deepMergeWithTracking T (jsEntries it.2) it.1 C P "").2.1
        (deepMergeWithTracking T (jsEntries it.2) it.1 C P "").2.2
        ((flattenEntries "" (jsEntries it.2)).foldl (specLeafStep it.1) A)
        (fun it2 hm => hwf it2 (List.mem_cons_of_mem _ hm)) hprest A4
        ?_ ?_ ?_ ?_
      · intro it2 hm2
        have hcompat12 := compatB_spec (List.all_eq_true.mp hall it2 hm2)
        obtain ⟨hcT1, hcT2⟩ := hcT it2 (List.mem_cons_of_mem _ hm2)
        constructor
        · intro q hq hop
          rcases A5b q hop with hl | hr
          · exact hcompat12.2 q hl hq
          · exact hcT1 q hq hr
        · intro q hq hfe
          rcases A5a q hfe with hl | hr
          · exact hcompat12.1 q hl hq
          · exact hcT2 q hq hr
      · intro q
        rw [A1 q, hI1 q, hspec]
        dsimp only
        rw [alookup_valuesFold_nodup hndit]
      · rw [A2, hspec]
        dsimp only
        rw [hI2]
        exact conflictFold_congr (fun l hl => hI1 l.1) A.conflicts
      · rw [A3, hspec]
        dsimp only
        rw [hI3]

/-- C1: for every merge group whose instances are wellformed objects with
nonempty dot-free duplicate-free keys, no array leaf values (JavaScript
compares arrays by reference, so value equality is not observable there)
and pairwise shape-compatible flattenings (no dotted path is a leaf in one
instance and an interior object node in another), the merge fold of
`computeNodeMappings` behaves exactly as the specification's per-leaf-path
fold: its merged data agrees at every flattened path with the accumulator
of `specLeafStep` (first occurrence sets, an equal later occurrence adds no
conflict, a differing later occurrence appends a conflict record and
overwrites), its conflict and provenance maps are equal to the
specification fold's, a path seen under exactly one value across all
instances has no conflict entry, and the final merged value at every path
is the value of the most recently processed occurrence.  (Without the
shape-compatibility proviso the claim fails: see the counterexample.) -/
theorem c1_merge_fold_flattened (items : List (SourceInfo × Json))
    (hwf : ∀ it ∈ items, wfFields (jsEntries it.2) = true)
    (hcompat : pairwiseCompatB items = true)
    (harr : ∀ x ∈ allLeaves items, isArr x.2.2 = false) :
    (∀ q, alookup (flattenEntries "" (mergeFold items).1) q =
      alookup (specMergeFold items).values q) ∧
    (mergeFold items).2.1 = (specMergeFold items).conflicts ∧
    (mergeFold items).2.2 = (specMergeFold items).propertySources ∧
    (∀ p v0, (∀ x ∈ allLeaves items, x.2.1 = p → x.2.2 = v0) →
      alookup (mergeFold items).2.1 p = none) ∧
    (∀ p, alookup (flattenEntries "" (mergeFold items).1) p =
      lastVal p (allLeaves items)) := by
  obtain ⟨I1, I2, I3⟩ := mergeFold_go_spec items [] [] [] ⟨[], [], []⟩ hwf
    hcompat rfl
    (fun it hm => ⟨fun q hq hop => by simp [objPathsEntries] at hop,
      fun q hq hfe => by simp [flattenEntries] at hfe⟩)
    (fun q => rfl) rfl rfl
  refine ⟨I1, I2, I3, ?_, ?_⟩
  · intro p v0 h
    rw [show (mergeFold items).2.1 = (specMergeFold items).conflicts from I2]
    rw [show (specMergeFold items).conflicts =
      ((allLeaves items).foldl (fun acc x => specLeafStep x.1 acc x.2)
        ⟨[], [], []⟩).conflicts from
      congrArg SpecAcc.conflicts (specMergeFold_eq_allLeaves items ⟨[], [], []⟩)]
    rw [specFold_no_conflict (allLeaves items) ⟨[], [], []⟩ p v0 h
      (Or.inl rfl)]
    rfl
  · intro p
    refine Eq.trans (I1 p) ?_
    rw [specMergeFold_eq_allLeaves items ⟨[], [], []⟩,
      specFold_lastVal (allLeaves items) ⟨[], [], []⟩ p]
    cases lastVal p (allLeaves items) <;> rfl

theorem c1_witness :
    ((∀ it ∈ mergeGroupExample, wfFields (jsEntries it.2) = true) ∧
      pairwiseCompatB mergeGroupExample = true ∧
      (∀ x ∈ allLeaves mergeGroupExample, isArr x.2.2 = false)) ∧
    ((∀ q, alookup (flattenEntries "" (mergeFold mergeGroupExample).1) q =
        alookup (specMergeFold mergeGroupExample).values q) ∧
      (mergeFold mergeGroupExample).2.1 =
        (specMergeFold mergeGroupExample).conflicts ∧
      (mergeFold mergeGroupExample).2.2 =
        (specMergeFold mergeGroupExample).propertySources ∧
      (∀ p v0, (∀ x ∈ allLeaves mergeGroupExample,
          x.2.1 = p → x.2.2 = v0) →
        alookup (mergeFold mergeGroupExample).2.1 p = none) ∧
      (∀ p, alookup (flattenEntries "" (mergeFold mergeGroupExample).1) p =
        lastVal p (allLeaves mergeGroupExample))) :=
  ⟨⟨by decide, by decide, by decide⟩,
    c1_merge_fold_flattened mergeGroupExample (by decide) (by decide)
      (by decide)⟩

end Jsonebula
